import Mathlib

/-!
Verification of the Perplexity CLI tool (`src/main.py`).

The development shallowly embeds the program's data and control flow:

* `Json` models decoded Python/JSON values (the values handled by
  `json.loads` / `json.dumps` and by `requests.Response.json()`).
  A finite Python float is represented by the text of its `repr`
  (Python's shortest round-tripping representation, which is injective
  on floats); the special floats are represented by the repr texts
  `"inf"`, `"-inf"`, `"nan"`.
* `dumpJson`/`dumps` model `json.dumps(v, indent=...)` with its default
  `ensure_ascii=True` escaping and default separators.
* `parseVal`/`loads` model `json.loads` (the pure-Python scanner with
  its default hooks), using an explicit recursion budget.
* `chatPayload` models the payload assembly in
  `PerplexityClient.chat_completion` (main.py lines 71-92).
* `chatResponse` models the request/except logic (main.py lines 94-102)
  as a function of the transport outcome.
* `mainFrom` models `main` from the point where the response is
  available (main.py lines 169-212), producing the observable trace of
  stdout/stderr/file-write effects and the exit status, or `crash` for
  an uncaught exception.
-/

namespace Perplexity

/-! ## Characters and digit strings -/

/-- The `'\x7b'` character (left curly brace). -/
def obrace : Char := Char.ofNat 123

/-- The `'\x7d'` character (right curly brace). -/
def cbrace : Char := Char.ofNat 125

/-- The decimal digit character for `d < 10`. -/
def digitChar (d : Nat) : Char := Char.ofNat (48 + d)

/-- Digits of `n`, most significant first, with a structural budget
(any budget above the digit count gives the same answer). -/
def natDigitsAux : Nat → Nat → List Char
  | 0, _ => []
  | fuel + 1, n =>
    if n < 10 then [digitChar n] else natDigitsAux fuel (n / 10) ++ [digitChar (n % 10)]

/-- Decimal digits of a natural number, most significant first
(the text of Python's `repr` of a nonnegative `int`). -/
def natDigits (n : Nat) : List Char := natDigitsAux (n + 1) n

/-- The text of Python's `repr` of an `int`. -/
def intRepr : Int → List Char
  | .ofNat n => natDigits n
  | .negSucc m => '-' :: natDigits (m + 1)

/-- Lowercase hexadecimal digit character for `d < 16`. -/
def hexDigitChar (d : Nat) : Char :=
  if d < 10 then Char.ofNat (48 + d) else Char.ofNat (97 + d - 10)

/-- Four lowercase hex digits of `n % 0x10000` (the `\uXXXX` payload
produced by Python's `json` encoder). -/
def hex4 (n : Nat) : List Char :=
  [hexDigitChar (n / 4096 % 16), hexDigitChar (n / 256 % 16),
   hexDigitChar (n / 16 % 16), hexDigitChar (n % 16)]

/-- `json.dumps` escaping of one character with `ensure_ascii=True`
(`py_encode_basestring_ascii`): printable ASCII other than `"` and `\`
is kept, the two-character escapes `\" \\ \b \f \n \r \t` are used when
available, every other character becomes `\uXXXX`, with a surrogate
pair for code points above `0xFFFF`. -/
def escChar (c : Char) : List Char :=
  if c = '"' then ['\\', '"']
  else if c = '\\' then ['\\', '\\']
  else if c.toNat = 8 then ['\\', 'b']
  else if c.toNat = 12 then ['\\', 'f']
  else if c = '\n' then ['\\', 'n']
  else if c = '\r' then ['\\', 'r']
  else if c = '\t' then ['\\', 't']
  else if 32 ≤ c.toNat ∧ c.toNat ≤ 126 then [c]
  else if c.toNat < 65536 then '\\' :: 'u' :: hex4 c.toNat
  else
    '\\' :: 'u' :: hex4 (55296 + (c.toNat - 65536) / 1024) ++
      ('\\' :: 'u' :: hex4 (56320 + (c.toNat - 65536) % 1024))

/-- Escaped characters of a string, without the surrounding quotes. -/
def escString (s : String) : List Char :=
  s.data.flatMap escChar

/-- `json.dumps` rendering of a string: quotes around the escape of
every character. -/
def quoteString (s : String) : List Char :=
  '"' :: escString s ++ ['"']

/-! ## The JSON value model -/

/-- Decoded Python/JSON values.  `float r` carries the text of the
Python `repr` of the float (injective on floats; `"inf"`, `"-inf"` and
`"nan"` for the non-finite ones).  `obj` carries the key/value pairs in
dict insertion order. -/
inductive Json where
  | null : Json
  | bool (b : Bool) : Json
  | int (n : Int) : Json
  | float (r : String) : Json
  | str (s : String) : Json
  | arr (elems : List Json) : Json
  | obj (members : List (String × Json)) : Json

/-! ## `json.dumps` -/

/-- Whitespace emitted after `[` / `\x7b` / `,` by the encoder: a
newline plus the indentation of the given level when `indent` is set,
nothing when it is not (the compact separators add their space
separately). -/
def openWs (ind : Option Nat) (lvl : Nat) : List Char :=
  match ind with
  | some w => '\n' :: List.replicate (w * lvl) ' '
  | none => []

/-- Separator emitted between two items: `,` plus a newline and
indentation when `indent` is set, `, ` when it is not. -/
def itemSep (ind : Option Nat) (lvl : Nat) : List Char :=
  match ind with
  | some w => ',' :: '\n' :: List.replicate (w * lvl) ' '
  | none => [',', ' ']

mutual

/-- `json.dumps(v, indent=ind)` at nesting level `lvl`, as a character
list (Python defaults: `ensure_ascii=True`, separators `(', ', ': ')`
compact or `(',', ': ')` with indent). -/
def dumpJson (ind : Option Nat) (lvl : Nat) : Json → List Char
  | .null => ['n', 'u', 'l', 'l']
  | .bool b => if b then ['t', 'r', 'u', 'e'] else ['f', 'a', 'l', 's', 'e']
  | .int n => intRepr n
  | .float r =>
      if r = "inf" then ['I', 'n', 'f', 'i', 'n', 'i', 't', 'y']
      else if r = "-inf" then '-' :: ['I', 'n', 'f', 'i', 'n', 'i', 't', 'y']
      else if r = "nan" then ['N', 'a', 'N']
      else r.data
  | .str s => quoteString s
  | .arr [] => ['[', ']']
  | .arr (x :: xs) =>
      '[' :: openWs ind (lvl + 1) ++ dumpJson ind (lvl + 1) x ++
        dumpElems ind (lvl + 1) xs ++ openWs ind lvl ++ [']']
  | .obj [] => [obrace, cbrace]
  | .obj ((k, v) :: ms) =>
      obrace :: openWs ind (lvl + 1) ++ quoteString k ++ ':' :: ' ' ::
        dumpJson ind (lvl + 1) v ++ dumpMembers ind (lvl + 1) ms ++
        openWs ind lvl ++ [cbrace]

/-- The remaining array items, each preceded by the item separator. -/
def dumpElems (ind : Option Nat) (lvl : Nat) : List Json → List Char
  | [] => []
  | x :: xs => itemSep ind lvl ++ dumpJson ind lvl x ++ dumpElems ind lvl xs

/-- The remaining object members, each preceded by the item separator. -/
def dumpMembers (ind : Option Nat) (lvl : Nat) : List (String × Json) → List Char
  | [] => []
  | (k, v) :: ms =>
      itemSep ind lvl ++ quoteString k ++ ':' :: ' ' ::
        dumpJson ind lvl v ++ dumpMembers ind lvl ms

end

/-- `json.dumps(v, indent=ind)` as a string. -/
def dumps (ind : Option Nat) (v : Json) : String :=
  String.mk (dumpJson ind 0 v)

/-! ## Well-formed values

`Json.float` carries arbitrary text, but a value decoded by
`json.loads` only ever carries the repr of an actual float: `inf`,
`-inf`, `nan`, or a finite token matching the scanner's number grammar
`-?(0|[1-9][0-9]*)(\.[0-9]+)?([eE][-+]?[0-9]+)?` with a fraction or
exponent present.  Likewise decoded objects never repeat a key.  `wfB`
checks both, recursively. -/

/-- Is `c` a decimal digit? -/
def isDigitChar (c : Char) : Bool := 48 ≤ c.toNat && c.toNat ≤ 57

/-- Integer-part token of the number grammar: `0` or a nonzero leading
digit followed by digits. -/
def intTokOK : List Char → Bool
  | [] => false
  | c :: ds =>
      if c = '0' then ds = []
      else 49 ≤ c.toNat && c.toNat ≤ 57 && ds.all isDigitChar

/-- Fraction-part token: empty, or `.` followed by at least one digit. -/
def fracTokOK : List Char → Bool
  | [] => true
  | '.' :: ds => !ds.isEmpty && ds.all isDigitChar
  | _ => false

/-- Exponent-part token: empty, or `e`/`E`, an optional sign, and at
least one digit. -/
def expTokOK : List Char → Bool
  | [] => true
  | e :: rest =>
      (e = 'e' || e = 'E') &&
      (match rest with
       | '+' :: ds => !ds.isEmpty && ds.all isDigitChar
       | '-' :: ds => !ds.isEmpty && ds.all isDigitChar
       | ds => !ds.isEmpty && ds.all isDigitChar)

/-- Does the unsigned part split as integer part, fraction, exponent
with fraction or exponent nonempty?  Checked by scanning the leading
digit run. -/
def floatCoreOK (core : List Char) : Bool :=
  let ip := core.takeWhile isDigitChar
  let rest := core.dropWhile isDigitChar
  let fp := match rest with
    | '.' :: more => '.' :: more.takeWhile isDigitChar
    | _ => []
  let ep := rest.drop fp.length
  intTokOK ip && fracTokOK fp && expTokOK ep && !(fp.isEmpty && ep.isEmpty)

/-- Does `l` match the finite-float grammar
`-?(0|[1-9][0-9]*)(\.[0-9]+)?([eE][-+]?[0-9]+)?` with a fraction or
exponent present? -/
def finiteFloatTokOK (l : List Char) : Bool :=
  match l with
  | '-' :: rest => floatCoreOK rest
  | _ => floatCoreOK l

/-- Is `r` the repr of some Python float? -/
def floatReprOK (r : String) : Bool :=
  r = "inf" || r = "-inf" || r = "nan" || finiteFloatTokOK r.data

/-- Do the members already contain key `k`? -/
def keyMem (k : String) : List (String × Json) → Bool
  | [] => false
  | (k', _) :: ms => k' = k || keyMem k ms

mutual

/-- A value lies in the image of the decoder: float reprs are genuine
float reprs and object keys are distinct. -/
def wfB : Json → Bool
  | .null => true
  | .bool _ => true
  | .int _ => true
  | .float r => floatReprOK r
  | .str _ => true
  | .arr xs => wfListB xs
  | .obj ms => wfMembersB ms

/-- All elements well formed. -/
def wfListB : List Json → Bool
  | [] => true
  | x :: xs => wfB x && wfListB xs

/-- All values well formed and keys distinct. -/
def wfMembersB : List (String × Json) → Bool
  | [] => true
  | (k, v) :: ms => !keyMem k ms && wfB v && wfMembersB ms

end

/-! ## `json.loads`

The pure-Python scanner (`json.scanner.py_make_scanner` with the
default `JSONDecoder` hooks), modelled with an explicit recursion
budget.  Every recursive call passes `fuel - 1` and the budget used by
`loads` exceeds the scanner's maximal call depth (at most three calls
per consumed character), so the budget never runs out on any input.
Failures of every kind (including a hypothetical exhausted budget) are
`none`, matching a raised `JSONDecodeError`. -/

/-- JSON whitespace (`[ \t\n\r]`). -/
def isWsChar (c : Char) : Bool := c = ' ' || c = '\t' || c = '\n' || c = '\r'

/-- Drop leading JSON whitespace. -/
def skipWs : List Char → List Char
  | [] => []
  | c :: cs => if isWsChar c then skipWs cs else c :: cs

/-- Value of a hex digit (both cases), `none` otherwise. -/
def hexVal (c : Char) : Option Nat :=
  if 48 ≤ c.toNat ∧ c.toNat ≤ 57 then some (c.toNat - 48)
  else if 97 ≤ c.toNat ∧ c.toNat ≤ 102 then some (c.toNat - 87)
  else if 65 ≤ c.toNat ∧ c.toNat ≤ 70 then some (c.toNat - 55)
  else none

/-- `_decode_uXXXX`: four hex digits. -/
def parseHex4 : List Char → Option (Nat × List Char)
  | a :: b :: c :: d :: rest =>
    match hexVal a, hexVal b, hexVal c, hexVal d with
    | some x, some y, some z, some w => some (4096 * x + 256 * y + 16 * z + w, rest)
    | _, _, _, _ => none
  | _ => none

/-- The two-character escapes accepted by `py_scanstring` (its
`BACKSLASH` table). -/
def escMap (c : Char) : Option Char :=
  if c = '"' then some '"'
  else if c = '\\' then some '\\'
  else if c = '/' then some '/'
  else if c = 'b' then some (Char.ofNat 8)
  else if c = 'f' then some (Char.ofNat 12)
  else if c = 'n' then some '\n'
  else if c = 'r' then some '\r'
  else if c = 't' then some '\t'
  else none

/-- `py_scanstring` after the opening quote, in strict mode: literal
characters up to the closing quote, two-character escapes, `\uXXXX`
escapes with surrogate-pair recombination, and an error on an
unescaped control character.  A lone surrogate (which Python keeps as
a lone surrogate code unit, a value a Lean `Char` cannot hold) is
mapped to NUL; no output of `dumpJson` contains one. -/
def parseStringBody : Nat → List Char → Option (List Char × List Char)
  | 0, _ => none
  | _, [] => none
  | fuel + 1, c :: cs =>
    if c = '"' then some ([], cs)
    else if c = '\\' then
      match cs with
      | [] => none
      | e :: cs2 =>
        if e = 'u' then
          match parseHex4 cs2 with
          | none => none
          | some (n, cs3) =>
            if 55296 ≤ n ∧ n ≤ 56319 then
              match cs3 with
              | '\\' :: 'u' :: cs4 =>
                match parseHex4 cs4 with
                | none => none
                | some (m, cs5) =>
                  if 56320 ≤ m ∧ m ≤ 57343 then
                    (parseStringBody fuel cs5).map (fun br =>
                      (Char.ofNat (65536 + (n - 55296) * 1024 + (m - 56320)) :: br.1, br.2))
                  else
                    (parseStringBody fuel cs3).map (fun br => (Char.ofNat n :: br.1, br.2))
              | _ => (parseStringBody fuel cs3).map (fun br => (Char.ofNat n :: br.1, br.2))
            else (parseStringBody fuel cs3).map (fun br => (Char.ofNat n :: br.1, br.2))
        else
          match escMap e with
          | some d => (parseStringBody fuel cs2).map (fun br => (d :: br.1, br.2))
          | none => none
    else if c.toNat < 32 then none
    else (parseStringBody fuel cs).map (fun br => (c :: br.1, br.2))

/-- Integer part of the scanner's `NUMBER_RE`: `0` or a nonzero digit
followed by digits. -/
def scanIntPart : List Char → Option (List Char × List Char)
  | [] => none
  | c :: rest =>
    if c = '0' then some (['0'], rest)
    else if 49 ≤ c.toNat ∧ c.toNat ≤ 57 then
      some (c :: rest.takeWhile isDigitChar, rest.dropWhile isDigitChar)
    else none

/-- Optional fraction `(\.[0-9]+)?`. -/
def scanFrac : List Char → List Char × List Char
  | '.' :: rest =>
      let ds := rest.takeWhile isDigitChar
      if ds.isEmpty then ([], '.' :: rest) else ('.' :: ds, rest.dropWhile isDigitChar)
  | l => ([], l)

/-- Optional exponent `([eE][-+]?[0-9]+)?`. -/
def scanExp : List Char → List Char × List Char
  | [] => ([], [])
  | e :: rest =>
    if e = 'e' ∨ e = 'E' then
      match rest with
      | [] => ([], [e])
      | s :: rest2 =>
        if s = '+' ∨ s = '-' then
          let ds := rest2.takeWhile isDigitChar
          if ds.isEmpty then ([], e :: s :: rest2)
          else (e :: s :: ds, rest2.dropWhile isDigitChar)
        else
          let ds := rest.takeWhile isDigitChar
          if ds.isEmpty then ([], e :: rest) else (e :: ds, rest.dropWhile isDigitChar)
    else ([], e :: rest)

/-- Numeric value of a digit run. -/
def digitsVal (l : List Char) : Nat :=
  List.foldl (fun a c => 10 * a + (c.toNat - 48)) 0 l

/-- A `NUMBER_RE` match at the head of the input: `int(...)` when there
is neither fraction nor exponent, `float(...)` otherwise (the float is
identified by its matched text, which equals its repr for every token
produced by the encoder). -/
def parseNumber (l : List Char) : Option (Json × List Char) :=
  let neg : Bool := match l with
    | '-' :: _ => true
    | _ => false
  let core := match l with
    | '-' :: rest => rest
    | _ => l
  match scanIntPart core with
  | none => none
  | some (ip, r1) =>
    let (fp, r2) := scanFrac r1
    let (ep, r3) := scanExp r2
    if fp.isEmpty && ep.isEmpty then
      some (Json.int (if neg then -(Int.ofNat (digitsVal ip)) else Int.ofNat (digitsVal ip)), r3)
    else
      some (Json.float (String.mk ((if neg then ['-'] else []) ++ ip ++ fp ++ ep)), r3)

/-- `dict(pairs)` insertion: an existing key keeps its position and
takes the new value, a new key is appended. -/
def dictInsert (ms : List (String × Json)) (k : String) (v : Json) : List (String × Json) :=
  match ms with
  | [] => [(k, v)]
  | (k', v') :: rest => if k' = k then (k', v) :: rest else (k', v') :: dictInsert rest k v

/-- `dict(pairs)` over a pair list. -/
def mkDict (ps : List (String × Json)) : List (String × Json) :=
  List.foldl (fun acc kv => dictInsert acc kv.1 kv.2) [] ps

mutual

/-- `scan_once` at a value position (whitespace already skipped by the
caller). -/
def parseVal : Nat → List Char → Option (Json × List Char)
  | 0, _ => none
  | _, [] => none
  | fuel + 1, c :: rest =>
    if c = '"' then
      (parseStringBody fuel rest).map (fun br => (Json.str (String.mk br.1), br.2))
    else if c = obrace then parseObjBody fuel rest
    else if c = '[' then parseArrBody fuel rest
    else if ['n', 'u', 'l', 'l'].isPrefixOf (c :: rest) then
      some (Json.null, (c :: rest).drop 4)
    else if ['t', 'r', 'u', 'e'].isPrefixOf (c :: rest) then
      some (Json.bool true, (c :: rest).drop 4)
    else if ['f', 'a', 'l', 's', 'e'].isPrefixOf (c :: rest) then
      some (Json.bool false, (c :: rest).drop 5)
    else if ['N', 'a', 'N'].isPrefixOf (c :: rest) then
      some (Json.float "nan", (c :: rest).drop 3)
    else if ['I', 'n', 'f', 'i', 'n', 'i', 't', 'y'].isPrefixOf (c :: rest) then
      some (Json.float "inf", (c :: rest).drop 8)
    else if ['-', 'I', 'n', 'f', 'i', 'n', 'i', 't', 'y'].isPrefixOf (c :: rest) then
      some (Json.float "-inf", (c :: rest).drop 9)
    else parseNumber (c :: rest)

/-- `JSONArray` after the opening bracket. -/
def parseArrBody : Nat → List Char → Option (Json × List Char)
  | 0, _ => none
  | fuel + 1, l =>
    match skipWs l with
    | ']' :: r => some (Json.arr [], r)
    | l1 => (parseElems fuel l1).map (fun vr => (Json.arr vr.1, vr.2))

/-- The element-and-separator loop of `JSONArray`, positioned at a
value. -/
def parseElems : Nat → List Char → Option (List Json × List Char)
  | 0, _ => none
  | fuel + 1, l =>
    match parseVal fuel l with
    | none => none
    | some (v, r) =>
      match skipWs r with
      | ',' :: r2 => (parseElems fuel (skipWs r2)).map (fun vr => (v :: vr.1, vr.2))
      | ']' :: r2 => some ([v], r2)
      | _ => none

/-- `JSONObject` after the opening brace. -/
def parseObjBody : Nat → List Char → Option (Json × List Char)
  | 0, _ => none
  | fuel + 1, l =>
    match skipWs l with
    | [] => none
    | c :: r =>
      if c = cbrace then some (Json.obj [], r)
      else if c = '"' then
        (parseMembers fuel r).map (fun mr => (Json.obj (mkDict mr.1), mr.2))
      else none

/-- The member-and-separator loop of `JSONObject`, positioned just
after the opening quote of a key. -/
def parseMembers : Nat → List Char → Option (List (String × Json) × List Char)
  | 0, _ => none
  | fuel + 1, l =>
    match parseStringBody fuel l with
    | none => none
    | some (key, r1) =>
      match skipWs r1 with
      | ':' :: r3 =>
        (match parseVal fuel (skipWs r3) with
         | none => none
         | some (v, r4) =>
           match skipWs r4 with
           | ',' :: r6 =>
             (match skipWs r6 with
              | '"' :: r7 =>
                (parseMembers fuel r7).map (fun mr =>
                  ((String.mk key, v) :: mr.1, mr.2))
              | _ => none)
           | c :: r6 => if c = cbrace then some ([(String.mk key, v)], r6) else none
           | [] => none)
      | _ => none

end

/-- `json.loads`: skip whitespace, scan one value, require only
whitespace after it.  The budget `4 * length + 8` exceeds the
scanner's maximal call depth on any input. -/
def loads (s : String) : Option Json :=
  match parseVal (4 * s.data.length + 8) (skipWs s.data) with
  | some (v, r) => if (skipWs r).isEmpty then some v else none
  | none => none

/-! ## Recursion-budget bookkeeping for the scanner -/

mutual

/-- An upper bound on the scanner call depth needed to read the
encoding of `v` (used to discharge the budget in the round-trip
proof). -/
def need : Json → Nat
  | .null => 1
  | .bool _ => 1
  | .int _ => 1
  | .float _ => 1
  | .str s => s.data.length + 2
  | .arr xs => needList xs + 3
  | .obj ms => needMembers ms + 3

/-- Depth bound for an element chain. -/
def needList : List Json → Nat
  | [] => 0
  | x :: xs => need x + needList xs + 2

/-- Depth bound for a member chain. -/
def needMembers : List (String × Json) → Nat
  | [] => 0
  | kv :: ms => kv.1.data.length + need kv.2 + needMembers ms + 3

end

/-- The character (if any) that follows a serialized number in
encoder output never extends the number token. -/
def numBreak : List Char → Prop
  | [] => True
  | c :: _ => isDigitChar c = false ∧ c ≠ '.' ∧ c ≠ 'e' ∧ c ≠ 'E'

/-- The input does not start with a digit. -/
def notDigitHead : List Char → Prop
  | [] => True
  | c :: _ => isDigitChar c = false

/-! ## Python runtime fragments used by `main`

`main` subscripts decoded JSON values, tests membership with `in`,
formats values into f-strings, and catches exactly `KeyError` and
`IndexError`.  `PyRes` is the outcome of such an expression: a value,
one of the two caught exception kinds, or an uncaught exception
(`TypeError`/`AttributeError`), which escapes `main` as a traceback. -/

/-- Outcome of evaluating a Python expression inside `main`. -/
inductive PyRes (α : Type) where
  | ok (a : α)
  | keyError (k : Json)
  | indexError
  | uncaught (msg : String)

/-- Sequencing: exceptions propagate. -/
def PyRes.bind {α β : Type} : PyRes α → (α → PyRes β) → PyRes β
  | .ok a, f => f a
  | .keyError k, _ => .keyError k
  | .indexError, _ => .indexError
  | .uncaught m, _ => .uncaught m

mutual

/-- Python `repr` of a decoded JSON value.  The quote-selection and
escaping done by `str.__repr__` are elided (single quotes around the
raw text); no claim below inspects the repr of a string containing a
quote or backslash. -/
def pyRepr : Json → String
  | .null => "None"
  | .bool true => "True"
  | .bool false => "False"
  | .int n => String.mk (intRepr n)
  | .float r => r
  | .str s => "'" ++ s ++ "'"
  | .arr xs => "[" ++ pyReprList xs ++ "]"
  | .obj ms => String.singleton obrace ++ pyReprMembers ms ++ String.singleton cbrace

/-- Comma-separated reprs of list elements. -/
def pyReprList : List Json → String
  | [] => ""
  | [x] => pyRepr x
  | x :: xs => pyRepr x ++ ", " ++ pyReprList xs

/-- Comma-separated `repr(k): repr(v)` pairs of a dict. -/
def pyReprMembers : List (String × Json) → String
  | [] => ""
  | [(k, v)] => "'" ++ k ++ "': " ++ pyRepr v
  | (k, v) :: ms => "'" ++ k ++ "': " ++ pyRepr v ++ ", " ++ pyReprMembers ms

end

/-- Python `str` of a decoded JSON value (as used by f-strings). -/
def pyStr : Json → String
  | .str s => s
  | j => pyRepr j

/-- Python subscript `j[k]` with a string key: dict lookup
(`KeyError` when absent), `TypeError` on any non-dict. -/
def pyGetItem (j : Json) (k : String) : PyRes Json :=
  match j with
  | .obj ms =>
    match List.lookup k ms with
    | some v => .ok v
    | none => .keyError (Json.str k)
  | .arr _ => .uncaught "list indices must be integers or slices, not str"
  | .str _ => .uncaught "string indices must be integers"
  | _ => .uncaught "object is not subscriptable"

/-- Python subscript `j[0]`: list head (`IndexError` when empty), the
first character of a string (`IndexError` when empty), `KeyError 0` on
a dict, `TypeError` otherwise. -/
def pyIndex0 (j : Json) : PyRes Json :=
  match j with
  | .arr [] => .indexError
  | .arr (x :: _) => .ok x
  | .str s =>
    match s.data with
    | [] => .indexError
    | c :: _ => .ok (Json.str (String.singleton c))
  | .obj _ => .keyError (Json.int 0)
  | _ => .uncaught "object is not subscriptable"

/-- Python `j.get(k)`: dict lookup defaulting to `None`; any non-dict
lacks the method (`AttributeError`, uncaught). -/
def pyGet (j : Json) (k : String) : PyRes Json :=
  match j with
  | .obj ms =>
    match List.lookup k ms with
    | some v => .ok v
    | none => .ok Json.null
  | _ => .uncaught "object has no attribute get"

/-- Is `needle` a substring of `hay` (Python `in` on strings)? -/
def containsSub (hay needle : List Char) : Bool :=
  (List.range (hay.length + 1)).any fun i => needle.isPrefixOf (hay.drop i)

/-- Python `x in j` for a string `x`: key test on a dict, element
equality on a list (a non-string element never equals a string),
substring test on a string, `TypeError` otherwise. -/
def pyContains (j : Json) (x : String) : PyRes Bool :=
  match j with
  | .obj ms => .ok (keyMem x ms)
  | .arr xs => .ok (xs.any fun e => match e with
      | .str s => s = x
      | _ => false)
  | .str s => .ok (containsSub s.data x.data)
  | _ => .uncaught "argument of type is not iterable"

/-- Python truthiness of a decoded JSON value. -/
def jsonTruthy : Json → Bool
  | .null => false
  | .bool b => b
  | .int n => n != 0
  | .float r => !(r = "0.0" || r = "-0.0")
  | .str s => !(s = "")
  | .arr xs => !xs.isEmpty
  | .obj ms => !ms.isEmpty

/-- Python iteration over a decoded JSON value: the elements of a
list, the 1-character strings of a string, the keys of a dict; `none`
(a `TypeError`) otherwise. -/
def pyIter : Json → Option (List Json)
  | .arr xs => some xs
  | .str s => some (s.data.map fun c => Json.str (String.singleton c))
  | .obj ms => some (ms.map fun kv => Json.str kv.1)
  | _ => none

/-! ## The request payload (`PerplexityClient.chat_completion`,
main.py lines 71-92) -/

/-- The `payload` dict literal plus the two conditional inserts, with
`Option Json` as the value type: `none` is Python `None` (only
`max_tokens` can hold it).  Order is dict insertion order. -/
def chatPayloadRaw (model : String) (messages : List Json)
    (max_tokens : Option Int) (temperature top_p : Json)
    (return_citations return_images return_related_questions : Bool)
    (search_domain_filter : Option (List String))
    (search_recency_filter : Option String)
    (top_k : Int) (stream : Bool) (presence_penalty frequency_penalty : Json) :
    List (String × Option Json) :=
  [("model", some (Json.str model)),
   ("messages", some (Json.arr messages)),
   ("max_tokens", max_tokens.map Json.int),
   ("temperature", some temperature),
   ("top_p", some top_p),
   ("return_citations", some (Json.bool return_citations)),
   ("return_images", some (Json.bool return_images)),
   ("return_related_questions", some (Json.bool return_related_questions)),
   ("top_k", some (Json.int top_k)),
   ("stream", some (Json.bool stream)),
   ("presence_penalty", some presence_penalty),
   ("frequency_penalty", some frequency_penalty)]
  ++ (match search_domain_filter with
      | some l => if l.isEmpty then [] else
          [("search_domain_filter", some (Json.arr (l.map Json.str)))]
      | none => [])
  ++ (match search_recency_filter with
      | some s => if s = "" then [] else
          [("search_recency_filter", some (Json.str s))]
      | none => [])

/-- The final payload: `\x7bk: v for k, v in payload.items() if v is not
None\x7d`. -/
def chatPayload (model : String) (messages : List Json)
    (max_tokens : Option Int) (temperature top_p : Json)
    (return_citations return_images return_related_questions : Bool)
    (search_domain_filter : Option (List String))
    (search_recency_filter : Option String)
    (top_k : Int) (stream : Bool) (presence_penalty frequency_penalty : Json) :
    List (String × Json) :=
  (chatPayloadRaw model messages max_tokens temperature top_p
      return_citations return_images return_related_questions
      search_domain_filter search_recency_filter
      top_k stream presence_penalty frequency_penalty).filterMap
    fun kv => kv.2.map fun v => (kv.1, v)

/-! ## Parsed CLI arguments (main.py lines 111-140) -/

/-- The argparse namespace fields that the modelled part of `main`
reads.  `temperature` is the repr of the float parsed by
`type=float`. -/
structure Args where
  question : String
  model : String
  max_tokens : Option Int
  temperature : String
  citations : Bool
  no_citations : Bool
  images : Bool
  related_questions : Bool
  domain_filter : Option (List String)
  recency : Option String
  json : Bool
  pretty : Bool
  save : Option String

/-- `action="store_true"` with the given default: the flag can only
set the value to `True`. -/
def storeTrue (dflt given : Bool) : Bool := if given then true else dflt

/-- The parsed namespace as a function of which flags were given and
of the valued options.  `--citations` and `--pretty` default to `True`
and `store_true` can never unset them. -/
def parsedArgs (question model : String) (max_tokens : Option Int)
    (temperature : String)
    (citationsGiven noCitationsGiven imagesGiven relatedGiven : Bool)
    (domain_filter : Option (List String)) (recency : Option String)
    (jsonGiven prettyGiven : Bool) (save : Option String) : Args :=
  { question := question, model := model, max_tokens := max_tokens,
    temperature := temperature,
    citations := storeTrue true citationsGiven,
    no_citations := storeTrue false noCitationsGiven,
    images := storeTrue false imagesGiven,
    related_questions := storeTrue false relatedGiven,
    domain_filter := domain_filter, recency := recency,
    json := storeTrue false jsonGiven,
    pretty := storeTrue true prettyGiven,
    save := save }

/-- Python truthiness of `args.max_tokens` (`None` and `0` falsy). -/
def optIntTruthy : Option Int → Bool
  | some n => n != 0
  | none => false

/-- Python truthiness of `args.domain_filter` (`None` and `[]` falsy). -/
def optListTruthy : Option (List String) → Bool
  | some l => !l.isEmpty
  | none => false

/-- Python truthiness of `args.recency` (`None` and `""` falsy). -/
def optStrTruthy : Option String → Bool
  | some s => !(s = "")
  | none => false

/-- The payload produced for `client.ask(args.question, **kwargs)`:
the kwargs assembly of main.py lines 150-166, the single user message
built by `ask`, and the defaults of `chat_completion` for every
parameter `main` does not pass. -/
def askPayload (args : Args) : List (String × Json) :=
  chatPayload args.model
    [Json.obj [("role", Json.str "user"), ("content", Json.str args.question)]]
    (if optIntTruthy args.max_tokens then args.max_tokens else none)
    (Json.float args.temperature) (Json.float "0.9")
    (args.citations && !args.no_citations) args.images args.related_questions
    (if optListTruthy args.domain_filter then args.domain_filter else none)
    (if optStrTruthy args.recency then args.recency else none)
    0 false (Json.int 0) (Json.int 1)

/-! ## The transport boundary (`chat_completion`, main.py lines 94-102) -/

/-- Outcome of `requests.post`: a completed HTTP response (any
status), or a `ConnectionError`/`Timeout` raised by the transport,
carrying `str(e)`. -/
inductive PostResult where
  | resp (status : Nat) (text : String)
  | connError (msg : String)
  | timeoutError (msg : String)

/-- `str(e)` for the `HTTPError` raised by `raise_for_status`,
modelled up to the reason phrase and URL, which no claim inspects. -/
def httpErrorMessage (status : Nat) : String :=
  if status < 500 then String.mk (natDigits status) ++ " Client Error"
  else String.mk (natDigits status) ++ " Server Error"

/-- `str(e)` for the `JSONDecodeError` raised by `response.json()`,
modelled up to position information, which no claim inspects. -/
def jsonDecodeMessage : String := "Expecting value"

/-- The try/except of `chat_completion`:  `raise_for_status` raises
`HTTPError` exactly for statuses 400-599 (with `e.response` set, so
the handler records the status code and body text); a transport error
has `e.response is None`, so `getattr` yields `None` and `hasattr`
fails; a 2xx (or other non-4xx/5xx) response is decoded, a decode
failure being a `RequestException` with no response attached.  In
every case the function returns a dict — errors become a dict with an
`"error"` key, success returns the decoded body verbatim. -/
def chatResponse : PostResult → Json
  | .resp status text =>
    if 400 ≤ status ∧ status < 600 then
      Json.obj [("error", Json.str (httpErrorMessage status)),
                ("status_code", Json.int status),
                ("response_text", Json.str text)]
    else
      match loads text with
      | some j => j
      | none => Json.obj [("error", Json.str jsonDecodeMessage),
                          ("status_code", Json.null)]
  | .connError msg => Json.obj [("error", Json.str msg), ("status_code", Json.null)]
  | .timeoutError msg => Json.obj [("error", Json.str msg), ("status_code", Json.null)]

/-! ## Rendering and the tail of `main` (main.py lines 169-212) -/

/-- `response["choices"][0]["message"]["content"]`. -/
def extractContent (response : Json) : PyRes Json :=
  PyRes.bind (pyGetItem response "choices") fun c =>
  PyRes.bind (pyIndex0 c) fun c0 =>
  PyRes.bind (pyGetItem c0 "message") fun m =>
  pyGetItem m "content"

/-- `f"\x7bi\x7d. \x7bcitation\x7d"` lines from `enumerate(..., 1)`. -/
def enumLines (i : Nat) : List Json → List String
  | [] => []
  | c :: cs => (String.mk (natDigits i) ++ ". " ++ pyStr c) :: enumLines (i + 1) cs

/-- The citations block appended to `output_parts` (lines 185-188). -/
def citParts (response : Json) (args : Args) : PyRes (List String) :=
  PyRes.bind (pyGet response "citations") fun cit =>
  if args.citations && jsonTruthy cit then
    match pyIter cit with
    | some items => .ok ("\nCitations:" :: enumLines 1 items)
    | none => .uncaught "citations value is not iterable"
  else .ok []

/-- Bullet lines of the related-questions block (the bullet bytes are
the ones present in the source file). -/
def bulletLines : List Json → List String
  | [] => []
  | q :: qs => ("â€¢ " ++ pyStr q) :: bulletLines qs

/-- The related-questions block appended to `output_parts`
(lines 190-193). -/
def relParts (response : Json) (args : Args) : PyRes (List String) :=
  PyRes.bind (pyGet response "related_questions") fun rq =>
  if args.related_questions && jsonTruthy rq then
    match pyIter rq with
    | some items => .ok ("\nRelated Questions:" :: bulletLines items)
    | none => .uncaught "related_questions value is not iterable"
  else .ok []

/-- The text-mode body of the `try` block (lines 182-195):
extraction, the two optional blocks, and `"\n".join(output_parts)`,
which needs `content` to be a string. -/
def textOutput (response : Json) (args : Args) : PyRes String :=
  PyRes.bind (extractContent response) fun content =>
  PyRes.bind (citParts response args) fun cps =>
  PyRes.bind (relParts response args) fun rps =>
  match content with
  | .str s => .ok (String.intercalate "\n" (s :: (cps ++ rps)))
  | _ => .uncaught "sequence item 0: expected str instance"

/-- `output` as prepared by lines 178-195: raw JSON when `--json`,
else the text rendering. -/
def prepareOutput (response : Json) (args : Args) : PyRes String :=
  if args.json then .ok (dumps (if args.pretty then some 2 else none) response)
  else textOutput response args

/-- One observable effect of the tail of `main`. -/
inductive Ev where
  | out (s : String)
  | err (s : String)
  | write (path content : String)
deriving DecidableEq

/-- The observable outcome of the tail of `main`: its ordered effect
trace and exit code, or a crash (an uncaught exception escaping
`main`). -/
inductive MainResult where
  | done (trace : List Ev) (code : Nat)
  | crash
deriving DecidableEq

/-- The error branch of `main` (lines 169-175): report the failure
dict to stderr and `sys.exit(1)`. -/
def errorBranch (response : Json) : MainResult :=
  match pyGetItem response "error" with
  | .ok v =>
    match pyContains response "status_code" with
    | .ok b1 =>
      let ls1 := if b1 then
          match pyGetItem response "status_code" with
          | .ok v2 => [Ev.err ("Status Code: " ++ pyStr v2)]
          | _ => []
        else []
      match pyContains response "response_text" with
      | .ok b2 =>
        let ls2 := if b2 then
            match pyGetItem response "response_text" with
            | .ok v3 => [Ev.err ("Response: " ++ pyStr v3)]
            | _ => []
          else []
        .done ([Ev.err ("Error: " ++ pyStr v)] ++ ls1 ++ ls2) 1
      | _ => .crash
    | _ => .crash
  | _ => .crash

/-- Display, then the optional save step (lines 202-212).  `fs` is the
file system's answer to the single `open`/`write`: `none` for success,
`some msg` for a raised `OSError` with that `str(e)`. -/
def afterDisplay (output : String) (args : Args) (fs : Option String) : MainResult :=
  match args.save with
  | none => .done [Ev.out output] 0
  | some fn =>
    match fs with
    | none => .done [Ev.out output, Ev.write fn output,
                     Ev.err ("\nResponse saved to: " ++ fn)] 0
    | some emsg => .done [Ev.out output, Ev.err ("Error saving file: " ++ emsg)] 0

/-- The render branch of `main` (lines 178-212): prepare the output,
catching exactly `KeyError` and `IndexError` from the text path (the
handler prints the message and the full raw JSON to stderr and exits
1); display and optionally save. -/
def renderBranch (response : Json) (args : Args) (fs : Option String) : MainResult :=
  match prepareOutput response args with
  | .ok output => afterDisplay output args fs
  | .keyError k => .done [Ev.err ("Error parsing response: " ++ pyRepr k),
                          Ev.err (dumps (some 2) response)] 1
  | .indexError => .done [Ev.err ("Error parsing response: list index out of range"),
                          Ev.err (dumps (some 2) response)] 1
  | .uncaught _ => .crash

/-- The tail of `main` from the moment `response` is available
(line 169 on): dispatch on `"error" in response`. -/
def mainFrom (response : Json) (args : Args) (fs : Option String) : MainResult :=
  match pyContains response "error" with
  | .ok true => errorBranch response
  | .ok false => renderBranch response args fs
  | _ => .crash

/-! ## Test fixtures -/

/-- Arguments as parsed when only the question is given on the command
line: every boolean flag at its default (`citations` and `pretty` are
`True`), text mode, no save file. -/
def defaultTestArgs : Args :=
  parsedArgs "q" "sonar" none "0.2" false false false false none none false false none

/-- The success body of the fourth testable property: one choice with
content `hello` and two citations. -/
def successBody : Json :=
  Json.obj
    [("choices", Json.arr [Json.obj [("message", Json.obj [("content", Json.str "hello")])]]),
     ("citations", Json.arr [Json.str "a", Json.str "b"])]

/-- A well-formed 2xx success payload that also carries a top-level
`"error"` member. -/
def ambiguousBody : Json :=
  Json.obj
    [("choices", Json.arr [Json.obj [("message", Json.obj [("content", Json.str "hi")])]]),
     ("error", Json.str "boom")]

/-- Is the transport outcome one the except-clause of
`chat_completion` fires for: a connection error, a timeout, or a
response whose status makes `raise_for_status` raise (400-599)? -/
def transportFailure : PostResult → Prop
  | .resp s _ => 400 ≤ s ∧ s < 600
  | .connError _ => True
  | .timeoutError _ => True

/-! ## Round-trip lemmas: whitespace, digits, hex -/

theorem skipWs_ws_append (pre l : List Char) (h : ∀ c ∈ pre, isWsChar c = true) :
    skipWs (pre ++ l) = skipWs l := by
  induction pre with
  | nil => rfl
  | cons c cs ih =>
    have hc := h c (by simp)
    simp only [List.cons_append, skipWs, hc, if_true]
    exact ih fun d hd => h d (by simp [hd])

theorem skipWs_not_ws (c : Char) (l : List Char) (h : isWsChar c = false) :
    skipWs (c :: l) = c :: l := by
  simp [skipWs, h]

theorem openWs_all_ws (ind : Option Nat) (lvl : Nat) :
    ∀ c ∈ openWs ind lvl, isWsChar c = true := by
  intro c hc
  cases ind with
  | none => simp [openWs] at hc
  | some w =>
    simp only [openWs, List.mem_cons] at hc
    rcases hc with rfl | hc
    · rfl
    · rw [List.eq_of_mem_replicate hc]; rfl

theorem itemSep_shape (ind : Option Nat) (lvl : Nat) :
    ∃ tail, itemSep ind lvl = ',' :: tail ∧ ∀ c ∈ tail, isWsChar c = true := by
  cases ind with
  | none => exact ⟨[' '], rfl, by intro c hc; simp at hc; subst hc; rfl⟩
  | some w =>
    refine ⟨'\n' :: List.replicate (w * lvl) ' ', rfl, ?_⟩
    intro c hc
    simp only [List.mem_cons] at hc
    rcases hc with rfl | hc
    · rfl
    · rw [List.eq_of_mem_replicate hc]; rfl

theorem natDigitsAux_fuel (f1 f2 n : Nat) (h1 : n < f1) (h2 : n < f2) :
    natDigitsAux f1 n = natDigitsAux f2 n := by
  induction f1 generalizing f2 n with
  | zero => omega
  | succ f1 ih =>
    cases f2 with
    | zero => omega
    | succ f2 =>
      simp only [natDigitsAux]
      by_cases hn : n < 10
      · simp [hn]
      · simp only [hn, if_false]
        rw [ih f2 (n / 10) (by omega) (by omega)]

theorem natDigits_recur (n : Nat) (h : 10 ≤ n) :
    natDigits n = natDigits (n / 10) ++ [digitChar (n % 10)] := by
  show natDigitsAux (n + 1) n = natDigitsAux (n / 10 + 1) (n / 10) ++ _
  conv_lhs => rw [natDigitsAux]
  simp only [Nat.not_lt.mpr h, if_false]
  rw [natDigitsAux_fuel n (n / 10 + 1) (n / 10) (by omega) (by omega)]

theorem natDigits_small (n : Nat) (h : n < 10) : natDigits n = [digitChar n] := by
  show natDigitsAux (n + 1) n = _
  cases n with
  | zero => rfl
  | succ m => simp [natDigitsAux, h]

theorem digitChar_digit (n : Nat) (h : n < 10) : isDigitChar (digitChar n) = true := by
  interval_cases n <;> decide

theorem natDigits_all_digits (n : Nat) : ∀ c ∈ natDigits n, isDigitChar c = true := by
  induction n using Nat.strong_induction_on with
  | _ n ih =>
    by_cases h : n < 10
    · rw [natDigits_small n h]
      intro c hc
      simp only [List.mem_singleton] at hc
      subst hc
      exact digitChar_digit n h
    · rw [natDigits_recur n (by omega)]
      intro c hc
      rcases List.mem_append.mp hc with hc | hc
      · exact ih (n / 10) (by omega) c hc
      · simp only [List.mem_singleton] at hc
        subst hc
        exact digitChar_digit _ (by omega)

theorem natDigits_ne_nil (n : Nat) : natDigits n ≠ [] := by
  by_cases h : n < 10
  · rw [natDigits_small n h]; simp
  · rw [natDigits_recur n (by omega)]; simp

theorem digitsVal_append_one (xs : List Char) (d : Char) :
    digitsVal (xs ++ [d]) = 10 * digitsVal xs + (d.toNat - 48) := by
  simp [digitsVal, List.foldl_append]

theorem digitChar_toNat (n : Nat) (h : n < 10) : (digitChar n).toNat = 48 + n := by
  interval_cases n <;> decide

theorem digitsVal_natDigits (n : Nat) : digitsVal (natDigits n) = n := by
  induction n using Nat.strong_induction_on with
  | _ n ih =>
    by_cases h : n < 10
    · rw [natDigits_small n h]
      simp [digitsVal, digitChar_toNat n h]
    · rw [natDigits_recur n (by omega), digitsVal_append_one,
        ih (n / 10) (by omega), digitChar_toNat _ (by omega)]
      omega

theorem natDigits_head_pos (n : Nat) (hn : n ≠ 0) :
    ∃ c cs, natDigits n = c :: cs ∧ 49 ≤ c.toNat ∧ c.toNat ≤ 57 ∧
      (∀ d ∈ cs, isDigitChar d = true) := by
  induction n using Nat.strong_induction_on with
  | _ n ih =>
    by_cases h : n < 10
    · refine ⟨digitChar n, [], natDigits_small n h, ?_, ?_, by simp⟩
      · rw [digitChar_toNat n h]; omega
      · rw [digitChar_toNat n h]; omega
    · obtain ⟨c, cs, hrec, h1, h2, h3⟩ := ih (n / 10) (by omega) (by omega)
      rw [natDigits_recur n (by omega), hrec]
      refine ⟨c, cs ++ [digitChar (n % 10)], by simp, h1, h2, ?_⟩
      intro d hd
      rcases List.mem_append.mp hd with hd | hd
      · exact h3 d hd
      · simp only [List.mem_singleton] at hd
        subst hd
        exact digitChar_digit _ (by omega)

theorem intTokOK_natDigits (n : Nat) : intTokOK (natDigits n) = true := by
  by_cases hn : n = 0
  · subst hn; rfl
  · obtain ⟨c, cs, heq, h1, h2, h3⟩ := natDigits_head_pos n hn
    rw [heq]
    have hc0 : c ≠ '0' := by
      intro h; subst h; simp at h1
    simp only [intTokOK, hc0, if_false]
    simp only [Bool.and_eq_true, decide_eq_true_eq, List.all_eq_true]
    exact ⟨⟨by omega, by omega⟩, h3⟩

theorem hexVal_hexDigitChar : ∀ d : Nat, d < 16 → hexVal (hexDigitChar d) = some d := by
  decide

theorem parseHex4_hex4 (m : Nat) (h : m < 65536) (rest : List Char) :
    parseHex4 (hex4 m ++ rest) = some (m, rest) := by
  simp only [hex4, List.cons_append, List.nil_append, parseHex4,
    hexVal_hexDigitChar (m / 4096 % 16) (by omega),
    hexVal_hexDigitChar (m / 256 % 16) (by omega),
    hexVal_hexDigitChar (m / 16 % 16) (by omega),
    hexVal_hexDigitChar (m % 16) (by omega)]
  congr 2
  omega

/-! ## Round-trip lemmas: strings -/

theorem char_not_surrogate (c : Char) :
    c.toNat < 55296 ∨ (57343 < c.toNat ∧ c.toNat < 1114112) := by
  have h := c.valid
  simp only [UInt32.isValidChar, Nat.isValidChar] at h
  exact h

theorem parseStringBody_cons_lit (fuel : Nat) (c : Char) (tail : List Char)
    (h1 : c ≠ '"') (h2 : c ≠ '\\') (h3 : 32 ≤ c.toNat) :
    parseStringBody (fuel + 1) (c :: tail)
      = (parseStringBody fuel tail).map (fun br => (c :: br.1, br.2)) := by
  simp [parseStringBody, h1, h2, Nat.not_lt.mpr h3]

theorem parseStringBody_cons_esc (fuel : Nat) (e d : Char) (tail : List Char)
    (hu : e ≠ 'u') (hm : escMap e = some d) :
    parseStringBody (fuel + 1) ('\\' :: e :: tail)
      = (parseStringBody fuel tail).map (fun br => (d :: br.1, br.2)) := by
  simp [parseStringBody, hu, hm]

theorem parseStringBody_cons_u (fuel n : Nat) (tail : List Char)
    (hn : n < 65536) (hns : ¬(55296 ≤ n ∧ n ≤ 56319)) :
    parseStringBody (fuel + 1) ('\\' :: 'u' :: (hex4 n ++ tail))
      = (parseStringBody fuel tail).map (fun br => (Char.ofNat n :: br.1, br.2)) := by
  simp [parseStringBody, parseHex4_hex4 n hn tail, hns]

theorem parseStringBody_cons_pair (fuel n m : Nat) (tail : List Char)
    (hn : 55296 ≤ n ∧ n ≤ 56319) (hm : 56320 ≤ m ∧ m ≤ 57343) :
    parseStringBody (fuel + 1) ('\\' :: 'u' :: (hex4 n ++ ('\\' :: 'u' :: (hex4 m ++ tail))))
      = (parseStringBody fuel tail).map
          (fun br => (Char.ofNat (65536 + (n - 55296) * 1024 + (m - 56320)) :: br.1, br.2)) := by
  simp [parseStringBody, parseHex4_hex4 n (by omega) _, parseHex4_hex4 m (by omega) _, hn, hm]

theorem parseStringBody_escape (s : List Char) :
    ∀ (rest : List Char) (fuel : Nat), s.length < fuel →
      parseStringBody fuel (s.flatMap escChar ++ '"' :: rest) = some (s, rest) := by
  induction s with
  | nil =>
    intro rest fuel hf
    obtain ⟨f, rfl⟩ : ∃ f, fuel = f + 1 := ⟨fuel - 1, by omega⟩
    simp [parseStringBody]
  | cons c cs ih =>
    intro rest fuel hf
    obtain ⟨f, rfl⟩ : ∃ f, fuel = f + 1 := ⟨fuel - 1, by omega⟩
    have hcs : cs.length < f := by simp at hf; omega
    have ihcs := ih rest f hcs
    simp only [List.flatMap_cons, List.append_assoc]
    by_cases h1 : c = '"'
    · subst h1
      rw [show escChar '"' = ['\\', '"'] from rfl]
      simp only [List.cons_append, List.nil_append]
      rw [parseStringBody_cons_esc f '"' '"' _ (by decide) rfl, ihcs]
      rfl
    · by_cases h2 : c = '\\'
      · subst h2
        rw [show escChar '\\' = ['\\', '\\'] from rfl]
        simp only [List.cons_append, List.nil_append]
        rw [parseStringBody_cons_esc f '\\' '\\' _ (by decide) rfl, ihcs]
        rfl
      · by_cases h3 : c.toNat = 8
        · have hc : c = Char.ofNat 8 := by rw [← h3, Char.ofNat_toNat]
          subst hc
          rw [show escChar (Char.ofNat 8) = ['\\', 'b'] from rfl]
          simp only [List.cons_append, List.nil_append]
          rw [parseStringBody_cons_esc f 'b' (Char.ofNat 8) _ (by decide) rfl, ihcs]
          rfl
        · by_cases h4 : c.toNat = 12
          · have hc : c = Char.ofNat 12 := by rw [← h4, Char.ofNat_toNat]
            subst hc
            rw [show escChar (Char.ofNat 12) = ['\\', 'f'] from rfl]
            simp only [List.cons_append, List.nil_append]
            rw [parseStringBody_cons_esc f 'f' (Char.ofNat 12) _ (by decide) rfl, ihcs]
            rfl
          · by_cases h5 : c = '\n'
            · subst h5
              rw [show escChar '\n' = ['\\', 'n'] from rfl]
              simp only [List.cons_append, List.nil_append]
              rw [parseStringBody_cons_esc f 'n' '\n' _ (by decide) rfl, ihcs]
              rfl
            · by_cases h6 : c = '\r'
              · subst h6
                rw [show escChar '\r' = ['\\', 'r'] from rfl]
                simp only [List.cons_append, List.nil_append]
                rw [parseStringBody_cons_esc f 'r' '\r' _ (by decide) rfl, ihcs]
                rfl
              · by_cases h7 : c = '\t'
                · subst h7
                  rw [show escChar '\t' = ['\\', 't'] from rfl]
                  simp only [List.cons_append, List.nil_append]
                  rw [parseStringBody_cons_esc f 't' '\t' _ (by decide) rfl, ihcs]
                  rfl
                · by_cases h8 : 32 ≤ c.toNat ∧ c.toNat ≤ 126
                  · have hesc : escChar c = [c] := by
                      simp [escChar, h1, h2, h3, h4, h5, h6, h7, h8]
                    rw [hesc]
                    simp only [List.singleton_append]
                    rw [parseStringBody_cons_lit f c _ h1 h2 h8.1, ihcs]
                    rfl
                  · by_cases h9 : c.toNat < 65536
                    · have hesc : escChar c = '\\' :: 'u' :: hex4 c.toNat := by
                        simp [escChar, h1, h2, h3, h4, h5, h6, h7, h8, h9]
                      rw [hesc]
                      simp only [List.cons_append]
                      rw [parseStringBody_cons_u f c.toNat _ h9
                        (by rcases char_not_surrogate c with h | h <;> omega)]
                      rw [ihcs, Char.ofNat_toNat]
                      rfl
                    · have hval : c.toNat < 1114112 := by
                        rcases char_not_surrogate c with h | h <;> omega
                      have hesc : escChar c =
                          '\\' :: 'u' :: hex4 (55296 + (c.toNat - 65536) / 1024) ++
                            ('\\' :: 'u' :: hex4 (56320 + (c.toNat - 65536) % 1024)) := by
                        simp [escChar, h1, h2, h3, h4, h5, h6, h7, h8, h9]
                      rw [hesc]
                      simp only [List.cons_append, List.append_assoc]
                      rw [parseStringBody_cons_pair f _ _ _
                        (by constructor <;> omega) (by constructor <;> omega)]
                      rw [ihcs]
                      have : (65536 + (55296 + (c.toNat - 65536) / 1024 - 55296) * 1024 +
                          (56320 + (c.toNat - 65536) % 1024 - 56320)) = c.toNat := by omega
                      rw [this, Char.ofNat_toNat]
                      rfl

/-! ## Round-trip lemmas: numbers -/

theorem numBreak_notDigitHead (l : List Char) (h : numBreak l) : notDigitHead l := by
  cases l with
  | nil => trivial
  | cons c cs => exact h.1

theorem numNeg_of_ne (c : Char) (l : List Char) (h : c ≠ '-') :
    (match c :: l with | '-' :: _ => true | _ => false) = false := by
  split
  next heq => injection heq with h1 _; exact absurd h1 h
  next => rfl

theorem numCore_of_ne (c : Char) (l : List Char) (h : c ≠ '-') :
    (match c :: l with | '-' :: rest => rest | _ => c :: l) = c :: l := by
  split
  next heq => injection heq with h1 _; exact absurd h1 h
  next => rfl

theorem scanFrac_not_dot (l : List Char) (h : notDigitHead l → True)
    (h2 : l = [] ∨ ∃ c cs, l = c :: cs ∧ c ≠ '.') : scanFrac l = ([], l) := by
  rcases h2 with rfl | ⟨c, cs, rfl, hc⟩
  · rfl
  · show (match c :: cs with
      | '.' :: rest =>
          let ds := rest.takeWhile isDigitChar
          if ds.isEmpty then ([], '.' :: rest) else ('.' :: ds, rest.dropWhile isDigitChar)
      | l => ([], l)) = ([], c :: cs)
    split
    next heq => injection heq with h1 _; exact absurd h1 hc
    next => rfl

theorem scanExp_break (l : List Char)
    (h : l = [] ∨ ∃ c cs, l = c :: cs ∧ c ≠ 'e' ∧ c ≠ 'E') : scanExp l = ([], l) := by
  rcases h with rfl | ⟨c, cs, rfl, hc, hC⟩
  · rfl
  · simp [scanExp, hc, hC]

theorem takeWhile_digits (ds rest : List Char)
    (hds : ∀ c ∈ ds, isDigitChar c = true) (hrest : notDigitHead rest) :
    (ds ++ rest).takeWhile isDigitChar = ds
    ∧ (ds ++ rest).dropWhile isDigitChar = rest := by
  induction ds with
  | nil =>
    cases rest with
    | nil => exact ⟨rfl, rfl⟩
    | cons c cs =>
      have hc : isDigitChar c = false := hrest
      simp [List.takeWhile_cons, List.dropWhile_cons, hc]
  | cons d ds ih =>
    have hd := hds d (by simp)
    obtain ⟨h1, h2⟩ := ih (fun c hc => hds c (by simp [hc]))
    simp [List.takeWhile_cons, List.dropWhile_cons, hd, h1, h2]

theorem intTokOK_dest (tok : List Char) (h : intTokOK tok = true) :
    ∃ c ds, tok = c :: ds ∧ isDigitChar c = true
      ∧ (∀ d ∈ ds, isDigitChar d = true)
      ∧ (c = '0' → ds = []) ∧ (c ≠ '0' → 49 ≤ c.toNat ∧ c.toNat ≤ 57) := by
  cases tok with
  | nil => simp [intTokOK] at h
  | cons c ds =>
    by_cases hc : c = '0'
    · subst hc
      have hds : ds = [] := by simpa [intTokOK] using h
      subst hds
      exact ⟨'0', [], rfl, rfl, by simp, fun _ => rfl, fun hne => absurd rfl hne⟩
    · simp only [intTokOK, hc, if_false, Bool.and_eq_true, decide_eq_true_eq,
        List.all_eq_true] at h
      refine ⟨c, ds, rfl, ?_, h.2, fun h0 => absurd h0 hc, fun _ => ⟨h.1.1, h.1.2⟩⟩
      simp only [isDigitChar, Bool.and_eq_true, decide_eq_true_eq]
      omega

theorem scanIntPart_tok (tok rest : List Char) (htok : intTokOK tok = true)
    (hrest : notDigitHead rest) : scanIntPart (tok ++ rest) = some (tok, rest) := by
  obtain ⟨c, ds, rfl, hcd, hds, h0, hpos⟩ := intTokOK_dest tok htok
  by_cases hc : c = '0'
  · subst hc
    rw [h0 rfl]
    simp [scanIntPart]
  · obtain ⟨h49, h57⟩ := hpos hc
    obtain ⟨ht, hd⟩ := takeWhile_digits ds rest hds hrest
    simp [scanIntPart, hc, h49, h57, ht, hd]

theorem parseNumber_intRepr (n : Int) (rest : List Char) (hbr : numBreak rest) :
    parseNumber (intRepr n ++ rest) = some (Json.int n, rest) := by
  have hrest : notDigitHead rest := numBreak_notDigitHead rest hbr
  have hfrac : scanFrac rest = ([], rest) := by
    apply scanFrac_not_dot rest (fun _ => trivial)
    cases rest with
    | nil => exact Or.inl rfl
    | cons c cs => exact Or.inr ⟨c, cs, rfl, hbr.2.1⟩
  have hexp : scanExp rest = ([], rest) := by
    apply scanExp_break
    cases rest with
    | nil => exact Or.inl rfl
    | cons c cs => exact Or.inr ⟨c, cs, rfl, hbr.2.2.1, hbr.2.2.2⟩
  cases n with
  | ofNat m =>
    obtain ⟨c, ds, heq, hcd, _, _, _⟩ := intTokOK_dest (natDigits m) (intTokOK_natDigits m)
    have hcm : c ≠ '-' := by
      intro h; subst h; simp [isDigitChar] at hcd
    show parseNumber (natDigits m ++ rest) = _
    rw [heq]
    simp only [parseNumber, List.cons_append, numNeg_of_ne c _ hcm, numCore_of_ne c _ hcm]
    rw [← List.cons_append, ← heq, scanIntPart_tok _ _ (intTokOK_natDigits m) hrest]
    simp only [hfrac, hexp, List.isEmpty_nil, Bool.and_self, if_true]
    rw [digitsVal_natDigits]
    rfl
  | negSucc m =>
    show parseNumber ('-' :: (natDigits (m + 1) ++ rest)) = _
    simp only [parseNumber]
    rw [scanIntPart_tok _ _ (intTokOK_natDigits (m + 1)) hrest]
    simp only [hfrac, hexp, List.isEmpty_nil, Bool.and_self, if_true]
    rw [digitsVal_natDigits]
    have h : (-(Int.ofNat (m + 1))) = Int.negSucc m := by
      simp only [Int.ofNat_eq_coe, Int.negSucc_eq]
      push_cast
      ring
    rw [h]

theorem dropWhile_head_false (p : Char → Bool) (l : List Char) (c : Char) (cs : List Char)
    (h : l.dropWhile p = c :: cs) : p c = false := by
  induction l with
  | nil => simp at h
  | cons a l ih =>
    rw [List.dropWhile_cons] at h
    by_cases ha : p a
    · simp only [ha, if_true] at h
      exact ih h
    · simp only [ha, if_false] at h
      cases h
      simpa using ha

theorem drop_takeWhile_length (p : Char → Bool) (l : List Char) :
    l.drop (l.takeWhile p).length = l.dropWhile p := by
  induction l with
  | nil => rfl
  | cons a l ih =>
    rw [List.takeWhile_cons, List.dropWhile_cons]
    by_cases ha : p a
    · simp [ha, ih]
    · simp [ha]

theorem expTokOK_dest (ep : List Char) (h : expTokOK ep = true) :
    ep = [] ∨ ∃ e sg ds, ep = e :: (sg ++ ds) ∧ (e = 'e' ∨ e = 'E')
      ∧ (sg = [] ∨ sg = ['+'] ∨ sg = ['-']) ∧ ds ≠ []
      ∧ (∀ c ∈ ds, isDigitChar c = true) := by
  cases ep with
  | nil => exact Or.inl rfl
  | cons e rest =>
    right
    simp only [expTokOK, Bool.and_eq_true, Bool.or_eq_true, decide_eq_true_eq] at h
    obtain ⟨he, hm⟩ := h
    rcases rest with _ | ⟨s, rest2⟩
    · simp at hm
    · by_cases hsp : s = '+'
      · subst hsp
        simp only [Bool.and_eq_true, List.all_eq_true, Bool.not_eq_true',
          List.isEmpty_eq_false] at hm
        refine ⟨e, ['+'], rest2, by simp, he, by simp, ?_, ?_⟩
        · exact List.isEmpty_eq_false.mp (by simpa using hm.1)
        · exact fun c hc => hm.2 c hc
      · by_cases hsm : s = '-'
        · subst hsm
          simp only [Bool.and_eq_true, List.all_eq_true] at hm
          refine ⟨e, ['-'], rest2, by simp, he, by simp, ?_, ?_⟩
          · exact List.isEmpty_eq_false.mp (by simpa using hm.1)
          · exact fun c hc => hm.2 c hc
        · have hm' : (!(s :: rest2).isEmpty && (s :: rest2).all isDigitChar) = true := by
            revert hm
            show (match s :: rest2 with
              | '+' :: ds => !ds.isEmpty && ds.all isDigitChar
              | '-' :: ds => !ds.isEmpty && ds.all isDigitChar
              | ds => !ds.isEmpty && ds.all isDigitChar) = true → _
            split
            next heq => injection heq with h1 _; exact absurd h1 hsp
            next heq => injection heq with h1 _; exact absurd h1 hsm
            next => exact id
          simp only [Bool.and_eq_true, List.all_eq_true] at hm'
          exact ⟨e, [], s :: rest2, by simp, he, by simp, by simp, fun c hc => hm'.2 c hc⟩

theorem fpMatch_not_dot (r0 : Char) (rest' : List Char) (h : r0 ≠ '.') :
    (match r0 :: rest' with
     | '.' :: more => '.' :: more.takeWhile isDigitChar
     | _ => []) = [] := by
  split
  next heq => injection heq with h1 _; exact absurd h1 h
  next => rfl

theorem floatCoreOK_split (core : List Char) (h : floatCoreOK core = true) :
    ∃ ip fp ep, core = ip ++ fp ++ ep
      ∧ intTokOK ip = true ∧ (∀ c ∈ ip, isDigitChar c = true)
      ∧ (fp = [] ∨ ∃ ds, fp = '.' :: ds ∧ ds ≠ [] ∧ ∀ c ∈ ds, isDigitChar c = true)
      ∧ (ep = [] ∨ ∃ e sg ds, ep = e :: (sg ++ ds) ∧ (e = 'e' ∨ e = 'E')
          ∧ (sg = [] ∨ sg = ['+'] ∨ sg = ['-']) ∧ ds ≠ []
          ∧ (∀ c ∈ ds, isDigitChar c = true))
      ∧ ¬(fp = [] ∧ ep = []) := by
  have hsplit : core = core.takeWhile isDigitChar ++ core.dropWhile isDigitChar :=
    (List.takeWhile_append_dropWhile isDigitChar core).symm
  rcases hrest : core.dropWhile isDigitChar with _ | ⟨r0, rest'⟩
  · rw [floatCoreOK, hrest] at h
    simp at h
  · by_cases hr0 : r0 = '.'
    · subst hr0
      rw [floatCoreOK, hrest] at h
      simp only [List.length_cons, List.drop_succ_cons, drop_takeWhile_length,
        Bool.and_eq_true, Bool.not_eq_true'] at h
      obtain ⟨⟨⟨hip, hfp⟩, hep⟩, hne⟩ := h
      refine ⟨core.takeWhile isDigitChar, '.' :: rest'.takeWhile isDigitChar,
        rest'.dropWhile isDigitChar, ?_, hip,
        fun c hc => List.mem_takeWhile_imp hc, ?_, expTokOK_dest _ hep, ?_⟩
      · conv_lhs => rw [hsplit, hrest]
        rw [show rest' = rest'.takeWhile isDigitChar ++ rest'.dropWhile isDigitChar from
          (List.takeWhile_append_dropWhile isDigitChar rest').symm]
        simp
      · right
        refine ⟨rest'.takeWhile isDigitChar, rfl, ?_,
          fun c hc => List.mem_takeWhile_imp hc⟩
        simp only [fracTokOK, Bool.and_eq_true, Bool.not_eq_true'] at hfp
        exact List.isEmpty_eq_false.mp hfp.1
      · rintro ⟨h1, _⟩
        simp at h1
    · rw [floatCoreOK, hrest] at h
      rw [fpMatch_not_dot r0 rest' hr0] at h
      simp only [List.length_nil, List.drop_zero, Bool.and_eq_true,
        Bool.not_eq_true', List.isEmpty_nil, Bool.true_and] at h
      obtain ⟨⟨⟨hip, _⟩, hep⟩, hne⟩ := h
      refine ⟨core.takeWhile isDigitChar, [], r0 :: rest', ?_, hip,
        fun c hc => List.mem_takeWhile_imp hc, Or.inl rfl, expTokOK_dest _ hep, ?_⟩
      · conv_lhs => rw [hsplit, hrest]
        simp
      · rintro ⟨_, h2⟩
        simp at h2

theorem finiteFloatTokOK_cons_ne (c : Char) (l : List Char) (h : c ≠ '-') :
    finiteFloatTokOK (c :: l) = floatCoreOK (c :: l) := by
  unfold finiteFloatTokOK
  split
  next heq => injection heq with h1 _; exact absurd h1 h
  next => rfl

theorem parseNumber_core (ip fp ep rest : List Char)
    (hip : intTokOK ip = true)
    (hfp : fp = [] ∨ ∃ ds, fp = '.' :: ds ∧ ds ≠ [] ∧ ∀ c ∈ ds, isDigitChar c = true)
    (hep : ep = [] ∨ ∃ e sg ds, ep = e :: (sg ++ ds) ∧ (e = 'e' ∨ e = 'E')
        ∧ (sg = [] ∨ sg = ['+'] ∨ sg = ['-']) ∧ ds ≠ []
        ∧ (∀ c ∈ ds, isDigitChar c = true))
    (hbr : numBreak rest) :
    scanIntPart (ip ++ (fp ++ (ep ++ rest))) = some (ip, fp ++ (ep ++ rest))
    ∧ scanFrac (fp ++ (ep ++ rest)) = (fp, ep ++ rest)
    ∧ scanExp (ep ++ rest) = (ep, rest) := by
  have heprest : notDigitHead (ep ++ rest) := by
    rcases hep with rfl | ⟨e, sg, ds, rfl, he, _, _, _⟩
    · exact numBreak_notDigitHead rest hbr
    · rcases he with rfl | rfl <;> exact rfl
  have hscanexp : scanExp (ep ++ rest) = (ep, rest) := by
    rcases hep with rfl | ⟨e, sg, ds, rfl, he, hsg, hds, hdig⟩
    · simp only [List.nil_append]
      apply scanExp_break
      cases rest with
      | nil => exact Or.inl rfl
      | cons c cs => exact Or.inr ⟨c, cs, rfl, hbr.2.2.1, hbr.2.2.2⟩
    · obtain ⟨d, ds', rfl⟩ := List.exists_cons_of_ne_nil hds
      have hdd := hdig d (by simp)
      have hds'd : ∀ c ∈ ds', isDigitChar c = true := fun c hc => hdig c (by simp [hc])
      have hepos : (e = 'e' ∨ e = 'E') := he
      obtain ⟨htw, hdw⟩ := takeWhile_digits (d :: ds') rest hdig
        (numBreak_notDigitHead rest hbr)
      rcases hsg with rfl | rfl | rfl
      · simp only [List.nil_append, List.cons_append]
        rw [scanExp, if_pos hepos]
        have hdp : ¬(d = '+' ∨ d = '-') := by
          rintro (rfl | rfl) <;> simp [isDigitChar] at hdd
        simp only [List.cons_append] at htw hdw
        simp [hdp, htw, hdw]
      · simp only [List.cons_append, List.singleton_append]
        rw [scanExp, if_pos hepos]
        simp only [List.cons_append] at htw hdw
        simp [htw, hdw]
      · simp only [List.cons_append, List.singleton_append]
        rw [scanExp, if_pos hepos]
        simp only [List.cons_append] at htw hdw
        simp [htw, hdw]
  have hscanfrac : scanFrac (fp ++ (ep ++ rest)) = (fp, ep ++ rest) := by
    rcases hfp with rfl | ⟨ds, rfl, hds, hdig⟩
    · simp only [List.nil_append]
      apply scanFrac_not_dot _ (fun _ => trivial)
      rcases hep with rfl | ⟨e, sg, ds, rfl, he, _, _, _⟩
      · cases rest with
        | nil => exact Or.inl rfl
        | cons c cs => exact Or.inr ⟨c, cs, rfl, hbr.2.1⟩
      · refine Or.inr ⟨e, _, rfl, ?_⟩
        rcases he with rfl | rfl <;> decide
    · obtain ⟨htw, hdw⟩ := takeWhile_digits ds (ep ++ rest) hdig heprest
      obtain ⟨d, ds', rfl⟩ := List.exists_cons_of_ne_nil hds
      simp only [List.cons_append]
      rw [scanFrac]
      simp only [List.cons_append] at htw hdw
      simp [htw, hdw]
  refine ⟨?_, hscanfrac, hscanexp⟩
  · apply scanIntPart_tok ip _ hip
    rcases hfp with rfl | ⟨ds, rfl, _, _⟩
    · simpa using heprest
    · exact rfl

theorem parseNumber_floatTok (tok rest : List Char)
    (htok : finiteFloatTokOK tok = true) (hbr : numBreak rest) :
    parseNumber (tok ++ rest) = some (Json.float (String.mk tok), rest) := by
  cases tok with
  | nil =>
    have : finiteFloatTokOK [] = floatCoreOK [] := rfl
    rw [this] at htok
    simp [floatCoreOK, intTokOK] at htok
  | cons c tok' =>
    by_cases hneg : c = '-'
    · subst hneg
      have hcore : floatCoreOK tok' = true := by
        rw [finiteFloatTokOK] at htok
        exact htok
      obtain ⟨ip, fp, ep, hsp, hip, _, hfp, hep, hne⟩ := floatCoreOK_split tok' hcore
      obtain ⟨h1, h2, h3⟩ := parseNumber_core ip fp ep rest hip hfp hep hbr
      subst hsp
      show parseNumber ('-' :: ((ip ++ fp ++ ep) ++ rest)) = _
      simp only [parseNumber, List.append_assoc]
      rw [h1]
      simp only [h2, h3]
      have hie : (fp.isEmpty && ep.isEmpty) = false := by
        rcases fp with _ | ⟨a, as⟩
        · rcases ep with _ | ⟨b, bs⟩
          · exact absurd ⟨rfl, rfl⟩ hne
          · simp
        · simp
      simp [hie]
    · have hcore : floatCoreOK (c :: tok') = true := by
        rw [finiteFloatTokOK_cons_ne c tok' hneg] at htok
        exact htok
      obtain ⟨ip, fp, ep, hsp, hip, hipd, hfp, hep, hne⟩ := floatCoreOK_split _ hcore
      obtain ⟨h1, h2, h3⟩ := parseNumber_core ip fp ep rest hip hfp hep hbr
      obtain ⟨c0, ds0, rfl, hcd, _, _, _⟩ := intTokOK_dest ip hip
      have hc0 : c0 ≠ '-' := by
        intro h; subst h; simp [isDigitChar] at hcd
      have hsp' : c :: tok' = c0 :: (ds0 ++ fp ++ ep) := by
        simpa using hsp
      rw [hsp']
      show parseNumber ((c0 :: (ds0 ++ fp ++ ep)) ++ rest) = _
      simp only [List.cons_append, parseNumber,
        numNeg_of_ne c0 _ hc0, numCore_of_ne c0 _ hc0]
      have h1' : scanIntPart (c0 :: (ds0 ++ fp ++ ep ++ rest)) =
          some (c0 :: ds0, fp ++ (ep ++ rest)) := by
        have := h1
        simp only [List.cons_append, List.append_assoc] at this ⊢
        exact this
      rw [h1']
      simp only [h2, h3]
      have hie : (fp.isEmpty && ep.isEmpty) = false := by
        rcases fp with _ | ⟨a, as⟩
        · rcases ep with _ | ⟨b, bs⟩
          · exact absurd ⟨rfl, rfl⟩ hne
          · simp
        · simp
      simp [hie]

/-! ## Round-trip lemmas: values -/

theorem Json.inductionOn {P : Json → Prop}
    (hnull : P .null) (hbool : ∀ b, P (.bool b)) (hint : ∀ n, P (.int n))
    (hfloat : ∀ r, P (.float r)) (hstr : ∀ s, P (.str s))
    (harr : ∀ xs, (∀ x ∈ xs, P x) → P (.arr xs))
    (hobj : ∀ ms, (∀ kv ∈ ms, P kv.2) → P (.obj ms)) : ∀ v, P v
  | .null => hnull
  | .bool b => hbool b
  | .int n => hint n
  | .float r => hfloat r
  | .str s => hstr s
  | .arr xs => harr xs fun x _hx =>
      Json.inductionOn hnull hbool hint hfloat hstr harr hobj x
  | .obj ms => hobj ms fun kv _hkv =>
      Json.inductionOn hnull hbool hint hfloat hstr harr hobj kv.2
termination_by v => sizeOf v
decreasing_by
  · have h := List.sizeOf_lt_of_mem _hx
    simp only [Json.arr.sizeOf_spec]
    omega
  · have h := List.sizeOf_lt_of_mem _hkv
    rcases kv with ⟨a, b⟩
    simp only [Json.obj.sizeOf_spec, Prod.mk.sizeOf_spec] at h ⊢
    omega

theorem isPrefixOf_cons_false (a c : Char) (as cs : List Char) (h : a ≠ c) :
    (a :: as).isPrefixOf (c :: cs) = false := by
  simp [List.isPrefixOf, h]

theorem digit_not_special (c : Char) (h : isDigitChar c = true) :
    c ≠ '"' ∧ c ≠ obrace ∧ c ≠ '[' ∧ c ≠ 'n' ∧ c ≠ 't' ∧ c ≠ 'f'
      ∧ c ≠ 'N' ∧ c ≠ 'I' ∧ c ≠ '-' := by
  refine ⟨?_, ?_, ?_, ?_, ?_, ?_, ?_, ?_, ?_⟩ <;> (rintro rfl; revert h; decide)

theorem parseVal_number_dispatch (fuel : Nat) (c : Char) (cs : List Char)
    (h : isDigitChar c = true
      ∨ (c = '-' ∧ ∃ d ds, cs = d :: ds ∧ isDigitChar d = true)) :
    parseVal (fuel + 1) (c :: cs) = parseNumber (c :: cs) := by
  rcases h with hd | ⟨rfl, d, ds, rfl, hd⟩
  · obtain ⟨h1, h2, h3, h4, h5, h6, h7, h8, h9⟩ := digit_not_special c hd
    rw [parseVal, if_neg h1, if_neg h2, if_neg h3]
    rw [isPrefixOf_cons_false 'n' c _ _ (Ne.symm h4), if_neg (by simp)]
    rw [isPrefixOf_cons_false 't' c _ _ (Ne.symm h5), if_neg (by simp)]
    rw [isPrefixOf_cons_false 'f' c _ _ (Ne.symm h6), if_neg (by simp)]
    rw [isPrefixOf_cons_false 'N' c _ _ (Ne.symm h7), if_neg (by simp)]
    rw [isPrefixOf_cons_false 'I' c _ _ (Ne.symm h8), if_neg (by simp)]
    rw [isPrefixOf_cons_false '-' c _ _ (Ne.symm h9), if_neg (by simp)]
  · obtain ⟨_, _, _, h4, h5, h6, h7, h8, _⟩ := digit_not_special d hd
    rw [parseVal, if_neg (by decide), if_neg (by decide), if_neg (by decide)]
    rw [isPrefixOf_cons_false 'n' '-' _ _ (by decide), if_neg (by simp)]
    rw [isPrefixOf_cons_false 't' '-' _ _ (by decide), if_neg (by simp)]
    rw [isPrefixOf_cons_false 'f' '-' _ _ (by decide), if_neg (by simp)]
    rw [isPrefixOf_cons_false 'N' '-' _ _ (by decide), if_neg (by simp)]
    rw [isPrefixOf_cons_false 'I' '-' _ _ (by decide), if_neg (by simp)]
    have hstep : (['-', 'I', 'n', 'f', 'i', 'n', 'i', 't', 'y'].isPrefixOf
        ('-' :: d :: ds))
        = (['I', 'n', 'f', 'i', 'n', 'i', 't', 'y'].isPrefixOf (d :: ds)) := by
      simp [List.isPrefixOf]
    rw [hstep, isPrefixOf_cons_false 'I' d _ _ (Ne.symm h8), if_neg (by simp)]

theorem finiteTok_head (l : List Char) (h : finiteFloatTokOK l = true) :
    ∃ c cs, l = c :: cs ∧ (isDigitChar c = true
      ∨ (c = '-' ∧ ∃ d ds, cs = d :: ds ∧ isDigitChar d = true)) := by
  cases l with
  | nil =>
    have heq : finiteFloatTokOK [] = floatCoreOK [] := rfl
    rw [heq] at h
    simp [floatCoreOK, intTokOK] at h
  | cons c cs =>
    by_cases hc : c = '-'
    · subst hc
      have heq : finiteFloatTokOK ('-' :: cs) = floatCoreOK cs := rfl
      rw [heq] at h
      cases cs with
      | nil => simp [floatCoreOK, intTokOK] at h
      | cons d ds =>
        refine ⟨'-', d :: ds, rfl, Or.inr ⟨rfl, d, ds, rfl, ?_⟩⟩
        by_contra hd
        simp only [Bool.not_eq_true] at hd
        rw [floatCoreOK] at h
        simp [List.takeWhile_cons, hd, intTokOK] at h
    · rw [finiteFloatTokOK_cons_ne c cs hc] at h
      refine ⟨c, cs, rfl, Or.inl ?_⟩
      by_contra hd
      simp only [Bool.not_eq_true] at hd
      rw [floatCoreOK] at h
      simp [List.takeWhile_cons, hd, intTokOK] at h

theorem ws_not_digit_break (c : Char) (h : isWsChar c = true) :
    isDigitChar c = false ∧ c ≠ '.' ∧ c ≠ 'e' ∧ c ≠ 'E' := by
  simp only [isWsChar, Bool.or_eq_true, decide_eq_true_eq] at h
  rcases h with ((rfl | rfl) | rfl) | rfl <;> exact ⟨rfl, by decide, by decide, by decide⟩

theorem numBreak_ws_close (clo : List Char) (c : Char) (rest : List Char)
    (hclo : ∀ x ∈ clo, isWsChar x = true)
    (hc : isDigitChar c = false ∧ c ≠ '.' ∧ c ≠ 'e' ∧ c ≠ 'E') :
    numBreak (clo ++ (c :: rest)) := by
  cases clo with
  | nil => exact hc
  | cons w ws => exact ws_not_digit_break w (hclo w (by simp))

theorem digit_head_facts (c : Char) (hc : isDigitChar c = true) :
    isWsChar c = false ∧ c ≠ ']' ∧ c ≠ ',' ∧ c ≠ cbrace := by
  refine ⟨?_, ?_, ?_, ?_⟩
  · by_contra hws
    rw [Bool.not_eq_false] at hws
    simp only [isWsChar, Bool.or_eq_true, decide_eq_true_eq] at hws
    rcases hws with ((rfl | rfl) | rfl) | rfl <;> revert hc <;> decide
  · rintro rfl; revert hc; decide
  · rintro rfl; revert hc; decide
  · rintro rfl; revert hc; decide

theorem dumpJson_head (v : Json) (hwf : wfB v = true) (ind : Option Nat) (lvl : Nat) :
    ∃ c cs, dumpJson ind lvl v = c :: cs ∧ isWsChar c = false
      ∧ c ≠ ']' ∧ c ≠ ',' ∧ c ≠ cbrace := by
  cases v with
  | null => exact ⟨'n', _, rfl, by decide, by decide, by decide, by decide⟩
  | bool b =>
    cases b
    · exact ⟨'f', _, rfl, by decide, by decide, by decide, by decide⟩
    · exact ⟨'t', _, rfl, by decide, by decide, by decide, by decide⟩
  | int n =>
    have hdump : dumpJson ind lvl (.int n) = intRepr n := by cases n <;> rfl
    rw [hdump]
    cases n with
    | ofNat m =>
      obtain ⟨c, ds, heq, hc, _, _, _⟩ := intTokOK_dest _ (intTokOK_natDigits m)
      obtain ⟨w1, w2, w3, w4⟩ := digit_head_facts c hc
      exact ⟨c, ds, heq, w1, w2, w3, w4⟩
    | negSucc m => exact ⟨'-', _, rfl, by decide, by decide, by decide, by decide⟩
  | float r =>
    by_cases h1 : r = "inf"
    · subst h1
      exact ⟨'I', _, rfl, by decide, by decide, by decide, by decide⟩
    · by_cases h2 : r = "-inf"
      · subst h2
        exact ⟨'-', _, rfl, by decide, by decide, by decide, by decide⟩
      · by_cases h3 : r = "nan"
        · subst h3
          exact ⟨'N', _, rfl, by decide, by decide, by decide, by decide⟩
        · have htok : finiteFloatTokOK r.data = true := by
            have := hwf
            simp only [wfB, floatReprOK, Bool.or_eq_true, decide_eq_true_eq] at this
            rcases this with ((rfl | rfl) | rfl) | hfin
            · exact absurd rfl h1
            · exact absurd rfl h2
            · exact absurd rfl h3
            · exact hfin
          obtain ⟨c, cs, heq, hc⟩ := finiteTok_head r.data htok
          have hdump : dumpJson ind lvl (.float r) = r.data := by
            simp [dumpJson, h1, h2, h3]
          rw [hdump, heq]
          rcases hc with hc | ⟨rfl, _⟩
          · obtain ⟨w1, w2, w3, w4⟩ := digit_head_facts c hc
            exact ⟨c, cs, rfl, w1, w2, w3, w4⟩
          · exact ⟨'-', cs, rfl, by decide, by decide, by decide, by decide⟩
  | str s => exact ⟨'"', _, rfl, by decide, by decide, by decide, by decide⟩
  | arr xs =>
    cases xs with
    | nil => exact ⟨'[', _, rfl, by decide, by decide, by decide, by decide⟩
    | cons x xs => exact ⟨'[', _, rfl, by decide, by decide, by decide, by decide⟩
  | obj ms =>
    cases ms with
    | nil => exact ⟨obrace, _, rfl, by decide, by decide, by decide, by decide⟩
    | cons kv ms =>
      rcases kv with ⟨k, v⟩
      exact ⟨obrace, _, rfl, by decide, by decide, by decide, by decide⟩

theorem skipWs_dump (v : Json) (hwf : wfB v = true) (ind : Option Nat) (lvl : Nat)
    (rest : List Char) :
    skipWs (dumpJson ind lvl v ++ rest) = dumpJson ind lvl v ++ rest := by
  obtain ⟨c, cs, heq, hws, _, _, _⟩ := dumpJson_head v hwf ind lvl
  rw [heq, List.cons_append]
  exact skipWs_not_ws c _ hws

theorem keyMem_false_forall (k : String) (ms : List (String × Json))
    (h : keyMem k ms = false) : ∀ p ∈ ms, p.1 ≠ k := by
  induction ms with
  | nil => simp
  | cons q ms ih =>
    rcases q with ⟨k', v'⟩
    simp only [keyMem, Bool.or_eq_false_iff, decide_eq_false_iff_not] at h
    intro p hp
    rcases List.mem_cons.mp hp with rfl | hp
    · exact h.1
    · exact ih h.2 p hp

theorem keyMem_append (k : String) (a b : List (String × Json)) :
    keyMem k (a ++ b) = (keyMem k a || keyMem k b) := by
  induction a with
  | nil => rfl
  | cons q a ih =>
    rcases q with ⟨k', v'⟩
    simp [keyMem, ih, Bool.or_assoc]

theorem dictInsert_append (acc : List (String × Json)) (k : String) (v : Json)
    (h : keyMem k acc = false) : dictInsert acc k v = acc ++ [(k, v)] := by
  induction acc with
  | nil => rfl
  | cons q acc ih =>
    rcases q with ⟨k', v'⟩
    simp only [keyMem, Bool.or_eq_false_iff, decide_eq_false_iff_not] at h
    simp only [dictInsert, h.1, if_false]
    rw [ih h.2]
    rfl

theorem mkDict_eq_self_aux (ms : List (String × Json)) :
    ∀ acc, (∀ p ∈ ms, keyMem p.1 acc = false) → wfMembersB ms = true →
    List.foldl (fun acc kv => dictInsert acc kv.1 kv.2) acc ms = acc ++ ms := by
  induction ms with
  | nil => intro acc _ _; simp
  | cons q ms ih =>
    rcases q with ⟨k, v⟩
    intro acc hdisj hwf
    simp only [wfMembersB, Bool.and_eq_true, Bool.not_eq_true'] at hwf
    obtain ⟨⟨hk, _⟩, hms⟩ := hwf
    simp only [List.foldl_cons]
    rw [dictInsert_append acc k v (hdisj (k, v) (by simp))]
    rw [ih (acc ++ [(k, v)]) ?_ hms]
    · simp
    · intro p hp
      rw [keyMem_append]
      have h1 : keyMem p.1 acc = false := hdisj p (by simp [hp])
      have h2 : keyMem p.1 [(k, v)] = false := by
        have := keyMem_false_forall k ms hk p hp
        simp only [keyMem, Bool.or_eq_false_iff, decide_eq_false_iff_not]
        exact ⟨fun hh => this hh.symm, trivial⟩
      rw [h1, h2]
      rfl

theorem mkDict_eq_self (ms : List (String × Json)) (h : wfMembersB ms = true) :
    mkDict ms = ms := by
  have := mkDict_eq_self_aux ms [] (by simp [keyMem]) h
  simpa [mkDict] using this

theorem wfListB_mem (xs : List Json) (h : wfListB xs = true) :
    ∀ x ∈ xs, wfB x = true := by
  induction xs with
  | nil => simp
  | cons z zs ih =>
    simp only [wfListB, Bool.and_eq_true] at h
    intro x hx
    rcases List.mem_cons.mp hx with rfl | hx
    · exact h.1
    · exact ih h.2 x hx

theorem wfMembersB_mem (ms : List (String × Json)) (h : wfMembersB ms = true) :
    ∀ kv ∈ ms, wfB kv.2 = true := by
  induction ms with
  | nil => simp
  | cons z zs ih =>
    rcases z with ⟨zk, zv⟩
    simp only [wfMembersB, Bool.and_eq_true] at h
    intro kv hkv
    rcases List.mem_cons.mp hkv with rfl | hkv
    · exact h.1.2
    · exact ih h.2 kv hkv

theorem numBreak_comma (l : List Char) : numBreak (',' :: l) :=
  ⟨by decide, by decide, by decide, by decide⟩

theorem skipWs_space (l : List Char) : skipWs (' ' :: l) = skipWs l := by
  rw [skipWs]
  simp [isWsChar]

theorem parseStringBody_escString (k : String) (rest : List Char) (fuel : Nat)
    (h : k.data.length < fuel) :
    parseStringBody fuel (escString k ++ '"' :: rest) = some (k.data, rest) :=
  parseStringBody_escape k.data rest fuel h

theorem parseElems_dump (ind : Option Nat) (lvl : Nat) (xs : List Json) :
    ∀ (x : Json),
    (∀ y ∈ x :: xs, wfB y = true ∧ ∀ rest fuel, need y < fuel → numBreak rest →
        parseVal fuel (dumpJson ind lvl y ++ rest) = some (y, rest)) →
    ∀ (clo rest : List Char) (fuel : Nat), (∀ c ∈ clo, isWsChar c = true) →
      needList (x :: xs) < fuel →
      parseElems fuel
          (dumpJson ind lvl x ++ (dumpElems ind lvl xs ++ (clo ++ (']' :: rest))))
        = some (x :: xs, rest) := by
  induction xs with
  | nil =>
    intro x hIH clo rest fuel hclo hneed
    obtain ⟨hwx, hrx⟩ := hIH x (by simp)
    have hneed' : need x + 2 < fuel := by simpa [needList] using hneed
    obtain ⟨f, rfl⟩ : ∃ f, fuel = f + 1 := ⟨fuel - 1, by omega⟩
    have hbrR : numBreak (clo ++ (']' :: rest)) :=
      numBreak_ws_close clo ']' rest hclo ⟨by decide, by decide, by decide, by decide⟩
    rw [show dumpElems ind lvl ([] : List Json) = [] from rfl, List.nil_append]
    rw [parseElems, hrx (clo ++ (']' :: rest)) f (by omega) hbrR]
    simp only [skipWs_ws_append clo _ hclo, skipWs_not_ws ']' rest (by decide)]
  | cons y ys ih =>
    intro x hIH clo rest fuel hclo hneed
    obtain ⟨hwx, hrx⟩ := hIH x (by simp)
    have hIHtail : ∀ z ∈ y :: ys, wfB z = true ∧ ∀ rest fuel, need z < fuel →
        numBreak rest → parseVal fuel (dumpJson ind lvl z ++ rest) = some (z, rest) :=
      fun z hz => hIH z (by simp at hz ⊢; tauto)
    have hneed' : need x + (need y + needList ys + 2) + 2 < fuel := by
      simpa [needList] using hneed
    obtain ⟨f, rfl⟩ : ∃ f, fuel = f + 1 := ⟨fuel - 1, by omega⟩
    obtain ⟨sep, hsep, hsepws⟩ := itemSep_shape ind lvl
    rw [show dumpElems ind lvl (y :: ys)
        = itemSep ind lvl ++ dumpJson ind lvl y ++ dumpElems ind lvl ys from rfl]
    rw [hsep]
    simp only [List.cons_append, List.append_assoc]
    rw [parseElems,
      hrx (',' :: (sep ++ (dumpJson ind lvl y ++ (dumpElems ind lvl ys ++
          (clo ++ (']' :: rest)))))) f (by omega)
        ⟨by decide, by decide, by decide, by decide⟩]
    simp only [skipWs_not_ws ',' _ (by decide)]
    rw [skipWs_ws_append sep _ hsepws,
      skipWs_dump y (hIHtail y (by simp)).1 ind lvl]
    rw [ih y hIHtail clo rest f hclo (by simp [needList] at hneed ⊢; omega)]
    rfl

theorem parseMembers_dump (ind : Option Nat) (lvl : Nat) (ms : List (String × Json)) :
    ∀ (k : String) (v : Json),
    (∀ kv ∈ (k, v) :: ms, wfB kv.2 = true ∧ ∀ rest fuel, need kv.2 < fuel →
        numBreak rest →
        parseVal fuel (dumpJson ind lvl kv.2 ++ rest) = some (kv.2, rest)) →
    ∀ (clo rest : List Char) (fuel : Nat), (∀ c ∈ clo, isWsChar c = true) →
      needMembers ((k, v) :: ms) < fuel →
      parseMembers fuel (escString k ++ ('"' :: (':' :: (' ' :: (dumpJson ind lvl v ++
          (dumpMembers ind lvl ms ++ (clo ++ (cbrace :: rest))))))))
        = some ((k, v) :: ms, rest) := by
  induction ms with
  | nil =>
    intro k v hIH clo rest fuel hclo hneed
    obtain ⟨hwv, hrv⟩ := hIH (k, v) (by simp)
    have hneed' : k.data.length + need v + 3 < fuel := by
      simpa [needMembers] using hneed
    obtain ⟨f, rfl⟩ : ∃ f, fuel = f + 1 := ⟨fuel - 1, by omega⟩
    have hbrR : numBreak (clo ++ (cbrace :: rest)) :=
      numBreak_ws_close clo cbrace rest hclo ⟨by decide, by decide, by decide, by decide⟩
    rw [parseMembers, parseStringBody_escString k _ f (by omega)]
    simp only [skipWs_not_ws ':' _ (by decide)]
    rw [skipWs_space]
    rw [skipWs_dump v hwv ind lvl]
    rw [show dumpMembers ind lvl ([] : List (String × Json)) = [] from rfl,
      List.nil_append]
    rw [hrv (clo ++ (cbrace :: rest)) f (by change need v < f; omega) hbrR]
    simp only [skipWs_ws_append clo _ hclo, skipWs_not_ws cbrace rest (by decide)]
    rfl
  | cons kv2 ms' ih =>
    rcases kv2 with ⟨k2, v2⟩
    intro k v hIH clo rest fuel hclo hneed
    obtain ⟨hwv, hrv⟩ := hIH (k, v) (by simp)
    have hIHtail : ∀ kv ∈ (k2, v2) :: ms', wfB kv.2 = true ∧ ∀ rest fuel,
        need kv.2 < fuel → numBreak rest →
        parseVal fuel (dumpJson ind lvl kv.2 ++ rest) = some (kv.2, rest) :=
      fun kv hkv => hIH kv (by simp at hkv ⊢; tauto)
    have hneed' : k.data.length + need v +
        (k2.data.length + need v2 + needMembers ms' + 3) + 3 < fuel := by
      simpa [needMembers] using hneed
    obtain ⟨f, rfl⟩ : ∃ f, fuel = f + 1 := ⟨fuel - 1, by omega⟩
    obtain ⟨sep, hsep, hsepws⟩ := itemSep_shape ind lvl
    rw [show dumpMembers ind lvl ((k2, v2) :: ms')
        = itemSep ind lvl ++ quoteString k2 ++ ':' :: ' ' ::
            dumpJson ind lvl v2 ++ dumpMembers ind lvl ms' from rfl]
    rw [hsep, show quoteString k2 = '"' :: (escString k2 ++ ['"']) from rfl]
    simp only [List.cons_append, List.append_assoc]
    rw [parseMembers, parseStringBody_escString k _ f (by omega)]
    simp only [skipWs_not_ws ':' _ (by decide)]
    rw [skipWs_space]
    rw [skipWs_dump v hwv ind lvl]
    rw [hrv _ f (by change need v < f; omega) (numBreak_comma _)]
    simp only [skipWs_not_ws ',' _ (by decide)]
    rw [skipWs_ws_append sep _ hsepws]
    simp only [skipWs_not_ws '"' _ (by decide), List.nil_append]
    rw [ih k2 v2 hIHtail clo rest f hclo (by simp [needMembers] at hneed ⊢; omega)]
    rfl

theorem parseArrBody_not_close (fuel : Nat) (l : List Char) (c : Char) (r : List Char)
    (h : skipWs l = c :: r) (hc : c ≠ ']') :
    parseArrBody (fuel + 1) l
      = (parseElems fuel (c :: r)).map (fun vr => (Json.arr vr.1, vr.2)) := by
  rw [parseArrBody, h]
  split
  next heq => injection heq with hh _; exact absurd hh hc
  next => rfl

theorem parseObjBody_at_quote (fuel : Nat) (l r : List Char) (h : skipWs l = '"' :: r) :
    parseObjBody (fuel + 1) l
      = (parseMembers fuel r).map (fun mr => (Json.obj (mkDict mr.1), mr.2)) := by
  rw [parseObjBody, h]
  rfl

theorem parseVal_dump (v : Json) :
    wfB v = true → ∀ (ind : Option Nat) (lvl : Nat) (rest : List Char) (fuel : Nat),
      need v < fuel → numBreak rest →
      parseVal fuel (dumpJson ind lvl v ++ rest) = some (v, rest) := by
  induction v using Json.inductionOn with
  | hnull =>
    intro _ ind lvl rest fuel hneed _
    obtain ⟨f, rfl⟩ : ∃ f, fuel = f + 1 := ⟨fuel - 1, by omega⟩
    show parseVal (f + 1) ('n' :: 'u' :: 'l' :: 'l' :: rest) = _
    rw [parseVal, if_neg (by decide), if_neg (by decide), if_neg (by decide),
      if_pos (by simp [List.isPrefixOf])]
    rfl
  | hbool b =>
    intro _ ind lvl rest fuel hneed _
    obtain ⟨f, rfl⟩ : ∃ f, fuel = f + 1 := ⟨fuel - 1, by omega⟩
    cases b
    · show parseVal (f + 1) ('f' :: 'a' :: 'l' :: 's' :: 'e' :: rest) = _
      rw [parseVal, if_neg (by decide), if_neg (by decide), if_neg (by decide),
        if_neg (by simp [List.isPrefixOf]), if_neg (by simp [List.isPrefixOf]),
        if_pos (by simp [List.isPrefixOf])]
      rfl
    · show parseVal (f + 1) ('t' :: 'r' :: 'u' :: 'e' :: rest) = _
      rw [parseVal, if_neg (by decide), if_neg (by decide), if_neg (by decide),
        if_neg (by simp [List.isPrefixOf]), if_pos (by simp [List.isPrefixOf])]
      rfl
  | hint n =>
    intro _ ind lvl rest fuel hneed hbr
    obtain ⟨f, rfl⟩ : ∃ f, fuel = f + 1 := ⟨fuel - 1, by omega⟩
    show parseVal (f + 1) (intRepr n ++ rest) = _
    have hd : ∃ c cs, intRepr n = c :: cs ∧ (isDigitChar c = true
        ∨ (c = '-' ∧ ∃ d ds, cs = d :: ds ∧ isDigitChar d = true)) := by
      cases n with
      | ofNat m =>
        obtain ⟨c, ds, heq, hc, _, _, _⟩ := intTokOK_dest _ (intTokOK_natDigits m)
        exact ⟨c, ds, heq, Or.inl hc⟩
      | negSucc m =>
        obtain ⟨c, ds, heq, hc, _, _, _⟩ := intTokOK_dest _ (intTokOK_natDigits (m + 1))
        exact ⟨'-', natDigits (m + 1), rfl, Or.inr ⟨rfl, c, ds, heq, hc⟩⟩
    obtain ⟨c, cs, heq, hc⟩ := hd
    have hcs : intRepr n ++ rest = c :: (cs ++ rest) := by rw [heq]; rfl
    rw [hcs]
    have hc' : isDigitChar c = true
        ∨ (c = '-' ∧ ∃ d ds, cs ++ rest = d :: ds ∧ isDigitChar d = true) := by
      rcases hc with hc | ⟨rfl, d, ds, rfl, hdd⟩
      · exact Or.inl hc
      · exact Or.inr ⟨rfl, d, ds ++ rest, rfl, hdd⟩
    rw [parseVal_number_dispatch f c (cs ++ rest) hc', ← hcs]
    exact parseNumber_intRepr n rest hbr
  | hfloat r =>
    intro hwf ind lvl rest fuel hneed hbr
    obtain ⟨f, rfl⟩ : ∃ f, fuel = f + 1 := ⟨fuel - 1, by omega⟩
    by_cases h1 : r = "inf"
    · subst h1
      show parseVal (f + 1)
        ('I' :: 'n' :: 'f' :: 'i' :: 'n' :: 'i' :: 't' :: 'y' :: rest) = _
      rw [parseVal, if_neg (by decide), if_neg (by decide), if_neg (by decide),
        if_neg (by simp [List.isPrefixOf]), if_neg (by simp [List.isPrefixOf]),
        if_neg (by simp [List.isPrefixOf]), if_neg (by simp [List.isPrefixOf]),
        if_pos (by simp [List.isPrefixOf])]
      rfl
    · by_cases h2 : r = "-inf"
      · subst h2
        show parseVal (f + 1)
          ('-' :: 'I' :: 'n' :: 'f' :: 'i' :: 'n' :: 'i' :: 't' :: 'y' :: rest) = _
        rw [parseVal, if_neg (by decide), if_neg (by decide), if_neg (by decide),
          if_neg (by simp [List.isPrefixOf]), if_neg (by simp [List.isPrefixOf]),
          if_neg (by simp [List.isPrefixOf]), if_neg (by simp [List.isPrefixOf]),
          if_neg (by simp [List.isPrefixOf]), if_pos (by simp [List.isPrefixOf])]
        rfl
      · by_cases h3 : r = "nan"
        · subst h3
          show parseVal (f + 1) ('N' :: 'a' :: 'N' :: rest) = _
          rw [parseVal, if_neg (by decide), if_neg (by decide), if_neg (by decide),
            if_neg (by simp [List.isPrefixOf]), if_neg (by simp [List.isPrefixOf]),
            if_neg (by simp [List.isPrefixOf]), if_pos (by simp [List.isPrefixOf])]
          rfl
        · have htok : finiteFloatTokOK r.data = true := by
            simp only [wfB, floatReprOK, Bool.or_eq_true, decide_eq_true_eq] at hwf
            rcases hwf with ((rfl | rfl) | rfl) | hfin
            · exact absurd rfl h1
            · exact absurd rfl h2
            · exact absurd rfl h3
            · exact hfin
          have hdump : dumpJson ind lvl (.float r) = r.data := by
            simp [dumpJson, h1, h2, h3]
          rw [hdump]
          obtain ⟨c, cs, heq, hc⟩ := finiteTok_head r.data htok
          have hcs : r.data ++ rest = c :: (cs ++ rest) := by rw [heq]; rfl
          rw [hcs]
          have hc' : isDigitChar c = true
              ∨ (c = '-' ∧ ∃ d ds, cs ++ rest = d :: ds ∧ isDigitChar d = true) := by
            rcases hc with hc | ⟨rfl, d, ds, rfl, hdd⟩
            · exact Or.inl hc
            · exact Or.inr ⟨rfl, d, ds ++ rest, rfl, hdd⟩
          rw [parseVal_number_dispatch f c (cs ++ rest) hc', ← hcs]
          exact parseNumber_floatTok r.data rest htok hbr
  | hstr s =>
    intro _ ind lvl rest fuel hneed _
    obtain ⟨f, rfl⟩ : ∃ f, fuel = f + 1 := ⟨fuel - 1, by omega⟩
    show parseVal (f + 1) (quoteString s ++ rest) = _
    rw [show quoteString s ++ rest = '"' :: (escString s ++ ('"' :: rest)) from by
      simp [quoteString]]
    rw [parseVal, if_pos rfl]
    rw [show escString s = s.data.flatMap escChar from rfl]
    rw [parseStringBody_escape s.data rest f (by simp only [need] at hneed; omega)]
    rfl
  | harr xs ihx =>
    intro hwf ind lvl rest fuel hneed _
    cases xs with
    | nil =>
      obtain ⟨f, rfl⟩ : ∃ f, fuel = f + 2 := ⟨fuel - 2, by simp [need, needList] at hneed; omega⟩
      show parseVal (f + 1 + 1) ('[' :: ']' :: rest) = _
      rw [parseVal, if_neg (by decide), if_neg (by decide), if_pos rfl]
      rw [parseArrBody, skipWs_not_ws ']' rest (by decide)]
      rfl
    | cons x xs' =>
      obtain ⟨f, rfl⟩ : ∃ f, fuel = f + 2 := ⟨fuel - 2, by simp [need] at hneed; omega⟩
      have hIH : ∀ y ∈ x :: xs', wfB y = true ∧ ∀ rest fuel, need y < fuel →
          numBreak rest →
          parseVal fuel (dumpJson ind (lvl + 1) y ++ rest) = some (y, rest) := by
        intro y hy
        have hwy : wfB y = true := wfListB_mem (x :: xs') hwf y hy
        exact ⟨hwy, fun rest fuel hf hb => ihx y hy hwy ind (lvl + 1) rest fuel hf hb⟩
      show parseVal (f + 1 + 1) (('[' :: (openWs ind (lvl + 1) ++ dumpJson ind (lvl + 1) x ++
          dumpElems ind (lvl + 1) xs' ++ openWs ind lvl ++ [']'])) ++ rest) = _
      simp only [List.cons_append, List.append_assoc, List.nil_append]
      rw [parseVal, if_neg (by decide), if_neg (by decide), if_pos rfl]
      obtain ⟨c, cs, hceq, _, hcne, _, _⟩ := dumpJson_head x (hIH x (by simp)).1 ind (lvl + 1)
      have hskip : skipWs (openWs ind (lvl + 1) ++ (dumpJson ind (lvl + 1) x ++
          (dumpElems ind (lvl + 1) xs' ++ (openWs ind lvl ++ (']' :: rest)))))
          = c :: (cs ++ (dumpElems ind (lvl + 1) xs' ++ (openWs ind lvl ++ (']' :: rest)))) := by
        rw [skipWs_ws_append _ _ (openWs_all_ws ind (lvl + 1)),
          skipWs_dump x (hIH x (by simp)).1 ind (lvl + 1), hceq]
        rfl
      rw [parseArrBody_not_close f _ c _ hskip hcne]
      rw [show c :: (cs ++ (dumpElems ind (lvl + 1) xs' ++ (openWs ind lvl ++ (']' :: rest))))
          = dumpJson ind (lvl + 1) x ++ (dumpElems ind (lvl + 1) xs' ++
              (openWs ind lvl ++ (']' :: rest)))
          from by rw [hceq]; rfl]
      rw [parseElems_dump ind (lvl + 1) xs' x hIH (openWs ind lvl) rest f
        (openWs_all_ws ind lvl) (by simp only [need] at hneed; omega)]
      rfl
  | hobj ms ihm =>
    intro hwf ind lvl rest fuel hneed _
    cases ms with
    | nil =>
      obtain ⟨f, rfl⟩ : ∃ f, fuel = f + 2 := ⟨fuel - 2, by simp [need, needMembers] at hneed; omega⟩
      show parseVal (f + 1 + 1) (obrace :: cbrace :: rest) = _
      rw [parseVal, if_neg (by decide), if_pos rfl]
      rw [parseObjBody, skipWs_not_ws cbrace rest (by decide)]
      rfl
    | cons kv ms' =>
      rcases kv with ⟨k, v⟩
      obtain ⟨f, rfl⟩ : ∃ f, fuel = f + 2 := ⟨fuel - 2, by simp [need] at hneed; omega⟩
      have hwfm : wfMembersB ((k, v) :: ms') = true := hwf
      have hIH : ∀ kv ∈ (k, v) :: ms', wfB kv.2 = true ∧ ∀ rest fuel,
          need kv.2 < fuel → numBreak rest →
          parseVal fuel (dumpJson ind (lvl + 1) kv.2 ++ rest) = some (kv.2, rest) := by
        intro kv hkv
        have hwkv : wfB kv.2 = true := wfMembersB_mem ((k, v) :: ms') hwfm kv hkv
        exact ⟨hwkv, fun rest fuel hf hb => ihm kv hkv hwkv ind (lvl + 1) rest fuel hf hb⟩
      show parseVal (f + 1 + 1) ((obrace :: (openWs ind (lvl + 1) ++ quoteString k ++
          ':' :: ' ' :: dumpJson ind (lvl + 1) v ++ dumpMembers ind (lvl + 1) ms' ++
          openWs ind lvl ++ [cbrace])) ++ rest) = _
      simp only [List.cons_append, List.append_assoc, List.nil_append]
      rw [parseVal, if_neg (by decide), if_pos rfl]
      have hskip : skipWs (openWs ind (lvl + 1) ++ (quoteString k ++ (':' :: (' ' ::
          (dumpJson ind (lvl + 1) v ++ (dumpMembers ind (lvl + 1) ms' ++
            (openWs ind lvl ++ (cbrace :: rest))))))))
          = '"' :: (escString k ++ ('"' :: (':' :: (' ' :: (dumpJson ind (lvl + 1) v ++
              (dumpMembers ind (lvl + 1) ms' ++ (openWs ind lvl ++ (cbrace :: rest)))))))) := by
        rw [skipWs_ws_append _ _ (openWs_all_ws ind (lvl + 1))]
        rw [show quoteString k ++ (':' :: (' ' :: (dumpJson ind (lvl + 1) v ++
            (dumpMembers ind (lvl + 1) ms' ++ (openWs ind lvl ++ (cbrace :: rest))))))
            = '"' :: (escString k ++ ('"' :: (':' :: (' ' :: (dumpJson ind (lvl + 1) v ++
              (dumpMembers ind (lvl + 1) ms' ++ (openWs ind lvl ++ (cbrace :: rest))))))))
            from by simp [quoteString]]
        exact skipWs_not_ws '"' _ (by decide)
      rw [parseObjBody_at_quote f _ _ hskip]
      rw [parseMembers_dump ind (lvl + 1) ms' k v hIH (openWs ind lvl) rest f
        (openWs_all_ws ind lvl) (by simp only [need] at hneed; omega)]
      simp only [Option.map_some']
      rw [mkDict_eq_self _ hwfm]

theorem escChar_length_pos (c : Char) : 1 ≤ (escChar c).length := by
  unfold escChar
  split_ifs <;> simp [hex4]

theorem escString_length (s : String) : s.data.length ≤ (escString s).length := by
  show s.data.length ≤ (s.data.flatMap escChar).length
  induction s.data with
  | nil => simp
  | cons c cs ih =>
    have := escChar_length_pos c
    simp only [List.flatMap_cons, List.length_append, List.length_cons]
    omega

theorem itemSep_length_pos (ind : Option Nat) (lvl : Nat) :
    1 ≤ (itemSep ind lvl).length := by
  obtain ⟨tail, heq, _⟩ := itemSep_shape ind lvl
  simp [heq]

theorem need_le_dumpLen (v : Json) :
    wfB v = true → ∀ (ind : Option Nat) (lvl : Nat),
      need v ≤ 4 * (dumpJson ind lvl v).length := by
  induction v using Json.inductionOn with
  | hnull => intro _ ind lvl; simp [need, dumpJson]
  | hbool b => intro _ ind lvl; cases b <;> simp [need, dumpJson]
  | hint n =>
    intro _ ind lvl
    have hpos : 1 ≤ (intRepr n).length := by
      cases n with
      | ofNat m =>
        obtain ⟨c, cs, heq, _, _, _, _⟩ := intTokOK_dest _ (intTokOK_natDigits m)
        show 1 ≤ (natDigits m).length
        simp [heq]
      | negSucc m => simp [intRepr]
    show need (.int n) ≤ 4 * (intRepr n).length
    simp only [need]
    omega
  | hfloat r =>
    intro hwf ind lvl
    have hpos : 1 ≤ (dumpJson ind lvl (.float r)).length := by
      by_cases h1 : r = "inf"
      · subst h1; simp [dumpJson]
      · by_cases h2 : r = "-inf"
        · subst h2; simp [dumpJson]
        · by_cases h3 : r = "nan"
          · subst h3; simp [dumpJson]
          · have htok : finiteFloatTokOK r.data = true := by
              simp only [wfB, floatReprOK, Bool.or_eq_true, decide_eq_true_eq] at hwf
              rcases hwf with ((rfl | rfl) | rfl) | hfin
              · exact absurd rfl h1
              · exact absurd rfl h2
              · exact absurd rfl h3
              · exact hfin
            obtain ⟨c, cs, heq, _⟩ := finiteTok_head r.data htok
            have : dumpJson ind lvl (.float r) = r.data := by simp [dumpJson, h1, h2, h3]
            rw [this, heq]
            simp
    simp only [need]
    omega
  | hstr s =>
    intro _ ind lvl
    have := escString_length s
    show need (.str s) ≤ 4 * (quoteString s).length
    simp only [need, quoteString, List.length_cons, List.length_append,
      List.length_singleton]
    omega
  | harr xs ihx =>
    intro hwf ind lvl
    cases xs with
    | nil => simp [need, needList, dumpJson]
    | cons x xs' =>
      have hwx : wfB x = true := wfListB_mem _ hwf x (by simp)
      have helems : ∀ (ys : List Json), (∀ y ∈ ys, wfB y = true) →
          (∀ y ∈ ys, ∀ ind' lvl', need y ≤ 4 * (dumpJson ind' lvl' y).length) →
          ∀ lvl', needList ys ≤ 4 * (dumpElems ind lvl' ys).length := by
        intro ys
        induction ys with
        | nil => intro _ _ lvl'; simp [needList, dumpElems]
        | cons y ys' ihy =>
          intro hwall hdall lvl'
          have h1 := hdall y (by simp) ind lvl'
          have h2 := ihy (fun z hz => hwall z (by simp [hz]))
            (fun z hz => hdall z (by simp [hz])) lvl'
          have h3 := itemSep_length_pos ind lvl'
          simp only [needList, dumpElems, List.length_append]
          omega
      have h1 := ihx x (by simp) hwx ind (lvl + 1)
      have h2 := helems xs' (fun z hz => wfListB_mem _ hwf z (by simp [hz]))
        (fun z hz => ihx z (by simp [hz]) (wfListB_mem _ hwf z (by simp [hz]))) (lvl + 1)
      show need (.arr (x :: xs')) ≤ 4 * (dumpJson ind lvl (.arr (x :: xs'))).length
      simp only [need, needList, dumpJson, List.length_cons, List.length_append,
        List.length_singleton]
      omega
  | hobj ms ihm =>
    intro hwf ind lvl
    cases ms with
    | nil => simp [need, needMembers, dumpJson]
    | cons kv ms' =>
      rcases kv with ⟨k, v⟩
      have hwv : wfB v = true := wfMembersB_mem _ hwf (k, v) (by simp)
      have hmems : ∀ (ns : List (String × Json)), (∀ p ∈ ns, wfB p.2 = true) →
          (∀ p ∈ ns, ∀ ind' lvl', need p.2 ≤ 4 * (dumpJson ind' lvl' p.2).length) →
          ∀ lvl', needMembers ns ≤ 4 * (dumpMembers ind lvl' ns).length := by
        intro ns
        induction ns with
        | nil => intro _ _ lvl'; simp [needMembers, dumpMembers]
        | cons p ns' ihp =>
          rcases p with ⟨pk, pv⟩
          intro hwall hdall lvl'
          have h1 : need pv ≤ 4 * (dumpJson ind lvl' pv).length :=
            hdall (pk, pv) (by simp) ind lvl'
          have h2 := ihp (fun z hz => hwall z (by simp [hz]))
            (fun z hz => hdall z (by simp [hz])) lvl'
          have h3 := itemSep_length_pos ind lvl'
          have h4 := escString_length pk
          simp only [needMembers, dumpMembers, List.length_append, quoteString,
            List.length_cons, List.length_singleton]
          omega
      have h1 : need v ≤ 4 * (dumpJson ind (lvl + 1) v).length :=
        ihm (k, v) (by simp) hwv ind (lvl + 1)
      have h2 := hmems ms' (fun z hz => wfMembersB_mem _ hwf z (by simp [hz]))
        (fun z hz => ihm z (by simp [hz]) (wfMembersB_mem _ hwf z (by simp [hz]))) (lvl + 1)
      have h4 := escString_length k
      show need (.obj ((k, v) :: ms')) ≤ 4 * (dumpJson ind lvl (.obj ((k, v) :: ms'))).length
      simp only [need, needMembers, dumpJson, List.length_cons, List.length_append,
        List.length_singleton, quoteString]
      omega

theorem loads_dumps (v : Json) (hwf : wfB v = true) :
    loads (dumps (some 2) v) = some v := by
  show (match parseVal (4 * (dumpJson (some 2) 0 v).length + 8)
      (skipWs (dumpJson (some 2) 0 v)) with
    | some (w, r) => if (skipWs r).isEmpty then some w else none
    | none => none) = some v
  have h1 : skipWs (dumpJson (some 2) 0 v) = dumpJson (some 2) 0 v := by
    have := skipWs_dump v hwf (some 2) 0 []
    simpa using this
  have h2 : parseVal (4 * (dumpJson (some 2) 0 v).length + 8)
      (dumpJson (some 2) 0 v) = some (v, []) := by
    have := parseVal_dump v hwf (some 2) 0 []
      (4 * (dumpJson (some 2) 0 v).length + 8)
      (by have := need_le_dumpLen v hwf (some 2) 0; omega) trivial
    simpa using this
  rw [h1, h2]
  rfl

/-! ## Decoder output well-formedness -/

theorem scanIntPart_ok (l ip r : List Char) (h : scanIntPart l = some (ip, r)) :
    intTokOK ip = true ∧ ∀ c ∈ ip, isDigitChar c = true := by
  cases l with
  | nil => simp [scanIntPart] at h
  | cons c rest =>
    by_cases hc : c = '0'
    · subst hc
      rw [scanIntPart, if_pos rfl] at h
      injection h with h1
      injection h1 with h2 h3
      rw [← h2]
      exact ⟨by decide, by decide⟩
    · rw [scanIntPart, if_neg hc] at h
      by_cases h49 : 49 ≤ c.toNat ∧ c.toNat ≤ 57
      · rw [if_pos h49] at h
        injection h with h1
        injection h1 with h2 h3
        rw [← h2]
        constructor
        · rw [intTokOK, if_neg hc]
          simp only [Bool.and_eq_true, decide_eq_true_eq, List.all_eq_true]
          exact ⟨⟨h49.1, h49.2⟩, fun d hd => List.mem_takeWhile_imp hd⟩
        · intro d hd
          rcases List.mem_cons.mp hd with rfl | hd
          · simp only [isDigitChar, Bool.and_eq_true, decide_eq_true_eq]
            omega
          · exact List.mem_takeWhile_imp hd
      · rw [if_neg h49] at h
        exact absurd h (by simp)

theorem scanFrac_dot (rest : List Char) :
    scanFrac ('.' :: rest) =
      if (rest.takeWhile isDigitChar).isEmpty then ([], '.' :: rest)
      else ('.' :: rest.takeWhile isDigitChar, rest.dropWhile isDigitChar) := rfl

theorem scanFrac_cases (l fp r : List Char) (h : scanFrac l = (fp, r)) :
    fp = [] ∨ ∃ ds, fp = '.' :: ds ∧ ds ≠ [] ∧ ∀ c ∈ ds, isDigitChar c = true := by
  cases l with
  | nil =>
    injection h with h1 h2
    exact Or.inl h1.symm
  | cons c rest =>
    by_cases hc : c = '.'
    · subst hc
      rw [scanFrac_dot] at h
      by_cases hds : (rest.takeWhile isDigitChar).isEmpty
      · rw [if_pos hds] at h
        injection h with h1 h2
        exact Or.inl h1.symm
      · rw [if_neg hds] at h
        injection h with h1 h2
        right
        refine ⟨rest.takeWhile isDigitChar, h1.symm, ?_,
          fun d hd => List.mem_takeWhile_imp hd⟩
        exact List.isEmpty_eq_false.mp (by simpa using hds)
    · rw [scanFrac_not_dot (c :: rest) (fun _ => trivial) (Or.inr ⟨c, rest, rfl, hc⟩)] at h
      injection h with h1 h2
      exact Or.inl h1.symm

theorem expTokOK_sign (e s : Char) (ds : List Char) (he : e = 'e' ∨ e = 'E')
    (hs : s = '+' ∨ s = '-') (hne : ds ≠ []) (hd : ∀ c ∈ ds, isDigitChar c = true) :
    expTokOK (e :: s :: ds) = true := by
  have he' : (e = 'e' || e = 'E') = true := by
    rcases he with rfl | rfl <;> simp
  rcases hs with rfl | rfl <;>
  · rw [expTokOK, he', Bool.true_and]
    simp only [Bool.and_eq_true, Bool.not_eq_true', List.all_eq_true]
    exact ⟨List.isEmpty_eq_false.mpr hne, hd⟩

theorem expTokOK_cons_digit (e s : Char) (tl : List Char) (he : e = 'e' ∨ e = 'E')
    (hs : isDigitChar s = true) (htl : ∀ c ∈ tl, isDigitChar c = true) :
    expTokOK (e :: s :: tl) = true := by
  have he' : (e = 'e' || e = 'E') = true := by
    rcases he with rfl | rfl <;> simp
  have hsp : s ≠ '+' := by rintro rfl; revert hs; decide
  have hsm : s ≠ '-' := by rintro rfl; revert hs; decide
  rw [expTokOK]
  · rw [he', Bool.true_and]
    simp only [List.isEmpty_cons, Bool.not_false, Bool.true_and, List.all_eq_true]
    intro c hc
    rcases List.mem_cons.mp hc with rfl | hc
    · exact hs
    · exact htl c hc
  · intro ds heq
    injection heq with h1 h2
    exact hsp h1
  · intro ds heq
    injection heq with h1 h2
    exact hsm h1

theorem scanExp_ok (l ep r : List Char) (h : scanExp l = (ep, r)) :
    expTokOK ep = true := by
  rw [scanExp.eq_def] at h
  split at h
  · injection h with h1 h2
    rw [← h1]
    rfl
  · rename_i e rest
    split_ifs at h with he
    · split at h
      · injection h with h1 h2
        rw [← h1]
        rfl
      · rename_i s rest2
        split_ifs at h with hs
        · dsimp only at h
          split_ifs at h with hds
          · injection h with h1 h2
            rw [← h1]
            rfl
          · injection h with h1 h2
            rw [← h1]
            exact expTokOK_sign e s (rest2.takeWhile isDigitChar) he hs
              (List.isEmpty_eq_false.mp (by simpa using hds))
              (fun d hd => List.mem_takeWhile_imp hd)
        · dsimp only at h
          split_ifs at h with hds
          · injection h with h1 h2
            rw [← h1]
            rfl
          · injection h with h1 h2
            rw [← h1]
            by_cases hsd : isDigitChar s = true
            · rw [List.takeWhile_cons, if_pos hsd]
              exact expTokOK_cons_digit e s (rest2.takeWhile isDigitChar) he hsd
                (fun d hd => List.mem_takeWhile_imp hd)
            · exfalso
              apply hds
              rw [List.takeWhile_cons, if_neg hsd]
              rfl
    · injection h with h1 h2
      rw [← h1]
      rfl

theorem fpMatch_dot (tl : List Char) :
    (match '.' :: tl with
     | '.' :: more => '.' :: more.takeWhile isDigitChar
     | _ => []) = '.' :: tl.takeWhile isDigitChar := by
  split
  next heq => injection heq with h1 h2; rw [h2]
  next hx => exact absurd rfl (hx tl)

theorem floatCoreOK_build (ip fp ep : List Char)
    (hip : intTokOK ip = true) (hipd : ∀ c ∈ ip, isDigitChar c = true)
    (hfp : fp = [] ∨ ∃ ds, fp = '.' :: ds ∧ ds ≠ [] ∧ ∀ c ∈ ds, isDigitChar c = true)
    (hep : expTokOK ep = true)
    (hne : fp = [] → ep ≠ []) :
    floatCoreOK (ip ++ fp ++ ep) = true := by
  have hepshape := expTokOK_dest ep hep
  have hepnd : notDigitHead ep := by
    rcases hepshape with rfl | ⟨e, sg, ds, rfl, he, _, _, _⟩
    · trivial
    · rcases he with rfl | rfl <;> exact rfl
  have hfpnd : notDigitHead (fp ++ ep) := by
    rcases hfp with rfl | ⟨ds, rfl, _, _⟩
    · exact hepnd
    · exact rfl
  obtain ⟨htw, hdw⟩ := takeWhile_digits ip (fp ++ ep) hipd hfpnd
  rw [List.append_assoc, floatCoreOK, htw, hdw]
  rcases hfp with rfl | ⟨ds, rfl, hdne, hdd⟩
  · obtain rfl | ⟨e, sg, ds, rfl, he, hsg, hdne, hdd⟩ := hepshape
    · exact absurd rfl (hne rfl)
    · have he' : e ≠ '.' := by rcases he with rfl | rfl <;> decide
      rw [List.nil_append, fpMatch_not_dot e (sg ++ ds) he']
      simp [hip, hep, fracTokOK]
  · obtain ⟨htw2, _⟩ := takeWhile_digits ds ep hdd hepnd
    rw [List.cons_append, fpMatch_dot (ds ++ ep), htw2]
    have hdrop : ('.' :: (ds ++ ep)).drop ('.' :: ds).length = ep := by
      rw [List.length_cons, List.drop_succ_cons, List.drop_left]
    rw [hdrop]
    have hfr : fracTokOK ('.' :: ds) = (!ds.isEmpty && ds.all isDigitChar) := rfl
    have hall : ds.all isDigitChar = true := List.all_eq_true.mpr hdd
    simp [hip, hep, hfr, List.isEmpty_eq_false.mpr hdne, hall]

theorem parseNumber_wf (l : List Char) (v : Json) (r : List Char)
    (h : parseNumber l = some (v, r)) : wfB v = true := by
  cases l with
  | nil => simp [parseNumber, scanIntPart] at h
  | cons c tok =>
    by_cases hneg : c = '-'
    · subst hneg
      simp only [parseNumber] at h
      rcases hsi : scanIntPart tok with _ | ⟨ip, r1⟩
      · rw [hsi] at h
        exact Option.noConfusion h
      · simp only [hsi] at h
        rcases hsf : scanFrac r1 with ⟨fp, r2⟩
        rcases hse : scanExp r2 with ⟨ep, r3⟩
        simp only [hsf, hse] at h
        by_cases hie : (fp.isEmpty && ep.isEmpty) = true
        · rw [if_pos hie] at h
          injection h with h1
          injection h1 with h2 h3
          rw [← h2]
          rfl
        · rw [if_neg hie] at h
          injection h with h1
          injection h1 with h2 h3
          rw [← h2]
          obtain ⟨hiptok, hipd⟩ := scanIntPart_ok tok ip r1 hsi
          have hfpc := scanFrac_cases r1 fp r2 hsf
          have hepok := scanExp_ok r2 ep r3 hse
          have hnefp : fp = [] → ep ≠ [] := by
            rintro rfl rfl
            exact hie rfl
          have hcoreok := floatCoreOK_build ip fp ep hiptok hipd hfpc hepok hnefp
          have htokOK : finiteFloatTokOK ('-' :: (ip ++ fp ++ ep)) = true := by
            rw [show finiteFloatTokOK ('-' :: (ip ++ fp ++ ep))
              = floatCoreOK (ip ++ fp ++ ep) from rfl]
            exact hcoreok
          show wfB (Json.float (String.mk ('-' :: (ip ++ fp ++ ep)))) = true
          rw [wfB, floatReprOK]
          simp only [show (String.mk ('-' :: (ip ++ fp ++ ep))).data
            = '-' :: (ip ++ fp ++ ep) from rfl, htokOK, Bool.or_true]
    · simp only [parseNumber, numNeg_of_ne c tok hneg, numCore_of_ne c tok hneg] at h
      rcases hsi : scanIntPart (c :: tok) with _ | ⟨ip, r1⟩
      · rw [hsi] at h
        exact Option.noConfusion h
      · simp only [hsi] at h
        rcases hsf : scanFrac r1 with ⟨fp, r2⟩
        rcases hse : scanExp r2 with ⟨ep, r3⟩
        simp only [hsf, hse] at h
        by_cases hie : (fp.isEmpty && ep.isEmpty) = true
        · rw [if_pos hie] at h
          injection h with h1
          injection h1 with h2 h3
          rw [← h2]
          rfl
        · rw [if_neg hie] at h
          injection h with h1
          injection h1 with h2 h3
          rw [← h2]
          obtain ⟨hiptok, hipd⟩ := scanIntPart_ok (c :: tok) ip r1 hsi
          have hfpc := scanFrac_cases r1 fp r2 hsf
          have hepok := scanExp_ok r2 ep r3 hse
          have hnefp : fp = [] → ep ≠ [] := by
            rintro rfl rfl
            exact hie rfl
          have hcoreok := floatCoreOK_build ip fp ep hiptok hipd hfpc hepok hnefp
          obtain ⟨c0, ds0, rfl, hcd, _, _, _⟩ := intTokOK_dest ip hiptok
          have hc0 : c0 ≠ '-' := by
            intro hx; subst hx; simp [isDigitChar] at hcd
          have htokOK : finiteFloatTokOK (c0 :: (ds0 ++ fp ++ ep)) = true := by
            rw [finiteFloatTokOK_cons_ne c0 (ds0 ++ fp ++ ep) hc0]
            exact hcoreok
          show wfB (Json.float (String.mk (c0 :: (ds0 ++ fp ++ ep)))) = true
          rw [wfB, floatReprOK]
          simp only [show (String.mk (c0 :: (ds0 ++ fp ++ ep))).data
            = c0 :: (ds0 ++ fp ++ ep) from rfl, htokOK, Bool.or_true]

theorem keyMem_dictInsert (a k : String) (v : Json) (ms : List (String × Json)) :
    keyMem a (dictInsert ms k v) = (keyMem a ms || decide (k = a)) := by
  induction ms with
  | nil => simp [dictInsert, keyMem]
  | cons q ms ih =>
    rcases q with ⟨k', v'⟩
    by_cases hk : k' = k
    · subst hk
      simp only [dictInsert, if_pos rfl, keyMem]
      by_cases ha : k' = a
      · subst ha; simp
      · simp [ha]
    · simp only [dictInsert, if_neg hk, keyMem, ih]
      rw [Bool.or_assoc]

theorem dictInsert_wf (ms : List (String × Json)) (k : String) (v : Json)
    (hms : wfMembersB ms = true) (hv : wfB v = true) :
    wfMembersB (dictInsert ms k v) = true := by
  induction ms with
  | nil => simp [dictInsert, wfMembersB, keyMem, hv]
  | cons q ms ih =>
    rcases q with ⟨k', v'⟩
    simp only [wfMembersB, Bool.and_eq_true, Bool.not_eq_true'] at hms
    obtain ⟨⟨hk'mem, hv'⟩, hms'⟩ := hms
    by_cases hk : k' = k
    · subst hk
      simp only [dictInsert, if_pos rfl, wfMembersB, Bool.and_eq_true, Bool.not_eq_true']
      exact ⟨⟨hk'mem, hv⟩, hms'⟩
    · simp only [dictInsert, if_neg hk, wfMembersB, Bool.and_eq_true, Bool.not_eq_true']
      refine ⟨⟨?_, hv'⟩, ih hms'⟩
      rw [keyMem_dictInsert, hk'mem, Bool.false_or,
        decide_eq_false (fun hx => hk hx.symm)]

theorem mkDict_wf_aux (ps : List (String × Json))
    (hall : ∀ kv ∈ ps, wfB kv.2 = true) :
    ∀ acc, wfMembersB acc = true →
      wfMembersB (List.foldl (fun acc kv => dictInsert acc kv.1 kv.2) acc ps) = true := by
  induction ps with
  | nil => intro acc hacc; simpa using hacc
  | cons q ps ih =>
    intro acc hacc
    simp only [List.foldl_cons]
    exact ih (fun kv hkv => hall kv (by simp [hkv])) _
      (dictInsert_wf acc q.1 q.2 hacc (hall q (by simp)))

theorem mkDict_wf (ps : List (String × Json))
    (hall : ∀ kv ∈ ps, wfB kv.2 = true) :
    wfMembersB (mkDict ps) = true :=
  mkDict_wf_aux ps hall [] rfl

theorem parser_wf : ∀ fuel : Nat,
    (∀ l vr, parseVal fuel l = some vr → wfB vr.1 = true)
    ∧ (∀ l vr, parseArrBody fuel l = some vr → wfB vr.1 = true)
    ∧ (∀ l vr, parseElems fuel l = some vr → wfListB vr.1 = true)
    ∧ (∀ l vr, parseObjBody fuel l = some vr → wfB vr.1 = true)
    ∧ (∀ l mr, parseMembers fuel l = some mr → ∀ kv ∈ mr.1, wfB kv.2 = true) := by
  intro fuel
  induction fuel with
  | zero =>
    refine ⟨fun l x hx => ?_, fun l x hx => ?_, fun l x hx => ?_, fun l x hx => ?_,
      fun l mr hmr => ?_⟩
    · rw [parseVal] at hx
      exact Option.noConfusion hx
    · rw [parseArrBody] at hx
      exact Option.noConfusion hx
    · rw [parseElems] at hx
      exact Option.noConfusion hx
    · rw [parseObjBody] at hx
      exact Option.noConfusion hx
    · rw [parseMembers] at hmr
      exact Option.noConfusion hmr
  | succ fuel ih =>
    obtain ⟨ihV, ihA, ihE, ihO, ihM⟩ := ih
    refine ⟨?_, ?_, ?_, ?_, ?_⟩
    · intro l vr h
      cases l with
      | nil => simp [parseVal] at h
      | cons c rest =>
        rw [parseVal] at h
        split_ifs at h with h1 h2 h3 h4 h5 h6 h7 h8 h9
        · simp only [Option.map_eq_some'] at h
          obtain ⟨br, hbr, hv⟩ := h
          rw [← hv]
          rfl
        · exact ihO rest vr h
        · exact ihA rest vr h
        · injection h with hx; rw [← hx]; rfl
        · injection h with hx; rw [← hx]; rfl
        · injection h with hx; rw [← hx]; rfl
        · injection h with hx; rw [← hx]; rfl
        · injection h with hx; rw [← hx]; rfl
        · injection h with hx; rw [← hx]; rfl
        · exact parseNumber_wf (c :: rest) vr.1 vr.2 h
    · intro l vr h
      rw [parseArrBody] at h
      split at h
      · injection h with hx; rw [← hx]; rfl
      · simp only [Option.map_eq_some'] at h
        obtain ⟨er, her, hv⟩ := h
        rw [← hv]
        exact ihE _ er her
    · intro l vr h
      rw [parseElems] at h
      split at h
      · exact absurd h (by simp)
      · rename_i v0 r0 heq
        split at h
        · simp only [Option.map_eq_some'] at h
          obtain ⟨er, her, hv⟩ := h
          rw [← hv]
          simp only [wfListB, Bool.and_eq_true]
          exact ⟨ihV _ _ heq, ihE _ er her⟩
        · injection h with hx
          rw [← hx]
          simp only [wfListB, Bool.and_eq_true]
          exact ⟨ihV _ _ heq, trivial⟩
        · exact absurd h (by simp)
    · intro l vr h
      rw [parseObjBody] at h
      split at h
      · exact absurd h (by simp)
      · rename_i c r heq
        split_ifs at h with hc hq
        · injection h with hx; rw [← hx]; rfl
        · simp only [Option.map_eq_some'] at h
          obtain ⟨mr, hmr, hv⟩ := h
          rw [← hv]
          show wfMembersB (mkDict mr.1) = true
          exact mkDict_wf mr.1 (ihM _ mr hmr)
    · intro l mr h
      rw [parseMembers] at h
      split at h
      · exact absurd h (by simp)
      · rename_i key r1 heqs
        split at h
        · rename_i r3 heq2
          split at h
          · exact absurd h (by simp)
          · rename_i v0 r4 heqv
            split at h
            · rename_i r6 heq4
              split at h
              · rename_i r7 heq5
                simp only [Option.map_eq_some'] at h
                obtain ⟨mr2, hmr2, hv⟩ := h
                rw [← hv]
                intro kv hkv
                rcases List.mem_cons.mp hkv with rfl | hkv
                · exact ihV _ _ heqv
                · exact ihM _ mr2 hmr2 kv hkv
              · exact absurd h (by simp)
            · rename_i c r6 heq4
              split_ifs at h with hc
              · injection h with hx
                rw [← hx]
                intro kv hkv
                rcases List.mem_cons.mp hkv with rfl | hkv
                · exact ihV _ _ heqv
                · simp at hkv
            · exact absurd h (by simp)
        · exact absurd h (by simp)

theorem loads_wf (s : String) (v : Json) (h : loads s = some v) : wfB v = true := by
  rw [loads] at h
  split at h
  · rename_i v0 r0 heq
    split_ifs at h with he
    · injection h with h1
      rw [← h1]
      exact (parser_wf (4 * s.data.length + 8)).1 _ (v0, r0) heq
  · exact Option.noConfusion h

/-! ## Theorems -/

/-- C9: the dict comprehension `if v is not None` drops only the
`None` sentinel: for every call to `chat_completion`, whatever the
other arguments, `top_k` (in particular `0`), `presence_penalty` (in
particular `0`), `temperature` (in particular `0`), `stream` and
`return_images` (in particular `False`) are present in the built
payload with exactly the passed values. -/
theorem chatPayload_keeps_falsy_values (model : String) (messages : List Json)
    (mt : Option Int) (temp tp : Json) (rc ri rrq : Bool)
    (sdf : Option (List String)) (src : Option String)
    (tk : Int) (st : Bool) (pp fp : Json) :
    List.lookup "top_k" (chatPayload model messages mt temp tp rc ri rrq sdf src tk st pp fp)
        = some (Json.int tk)
    ∧ List.lookup "presence_penalty" (chatPayload model messages mt temp tp rc ri rrq sdf src tk st pp fp)
        = some pp
    ∧ List.lookup "temperature" (chatPayload model messages mt temp tp rc ri rrq sdf src tk st pp fp)
        = some temp
    ∧ List.lookup "stream" (chatPayload model messages mt temp tp rc ri rrq sdf src tk st pp fp)
        = some (Json.bool st)
    ∧ List.lookup "return_images" (chatPayload model messages mt temp tp rc ri rrq sdf src tk st pp fp)
        = some (Json.bool ri) := by
  cases mt <;> exact ⟨rfl, rfl, rfl, rfl, rfl⟩

/-- C2: an unset optional (`max_tokens = None`, no domain filter, no
recency filter) leaves its key out of the payload altogether, and a
non-empty domain filter appears verbatim, order preserved. -/
theorem chatPayload_unset_omitted (model : String) (messages : List Json)
    (mt : Option Int) (temp tp : Json) (rc ri rrq : Bool)
    (sdf : Option (List String)) (src : Option String)
    (tk : Int) (st : Bool) (pp fp : Json) :
    (mt = none →
      List.lookup "max_tokens"
        (chatPayload model messages mt temp tp rc ri rrq sdf src tk st pp fp) = none)
    ∧ (sdf = none →
      List.lookup "search_domain_filter"
        (chatPayload model messages mt temp tp rc ri rrq sdf src tk st pp fp) = none)
    ∧ (src = none →
      List.lookup "search_recency_filter"
        (chatPayload model messages mt temp tp rc ri rrq sdf src tk st pp fp) = none)
    ∧ (∀ l, sdf = some l → l ≠ [] →
      List.lookup "search_domain_filter"
        (chatPayload model messages mt temp tp rc ri rrq sdf src tk st pp fp)
        = some (Json.arr (l.map Json.str))) := by
  refine ⟨?_, ?_, ?_, ?_⟩
  · rintro rfl
    rcases sdf with _ | l
    · rcases src with _ | s
      · rfl
      · by_cases hs : s = "" <;> simp [chatPayload, chatPayloadRaw, List.lookup, hs]
    · rcases src with _ | s <;> rcases l with _ | ⟨d, ds⟩ <;>
        first
        | rfl
        | (by_cases hs : s = "" <;> simp [chatPayload, chatPayloadRaw, List.lookup, hs])
  · rintro rfl
    rcases src with _ | s
    · cases mt <;> rfl
    · by_cases hs : s = "" <;> cases mt <;>
        simp [chatPayload, chatPayloadRaw, List.lookup, hs]
  · rintro rfl
    rcases sdf with _ | l
    · cases mt <;> rfl
    · rcases l with _ | ⟨d, ds⟩ <;> cases mt <;> rfl
  · rintro l rfl hl
    rcases l with _ | ⟨d, ds⟩
    · exact absurd rfl hl
    · cases mt <;> rfl

/-- Closed instance of `chatPayload_unset_omitted`: with every option
unset the three keys are absent, and the domain filter
`["arxiv.org", "nature.com"]` is carried verbatim. -/
theorem chatPayload_unset_omitted_witness :
    List.lookup "max_tokens"
      (chatPayload "sonar" [] none (Json.float "0.2") (Json.float "0.9")
        true false false none none 0 false (Json.int 0) (Json.int 1)) = none
    ∧ List.lookup "search_domain_filter"
      (chatPayload "sonar" [] none (Json.float "0.2") (Json.float "0.9")
        true false false none none 0 false (Json.int 0) (Json.int 1)) = none
    ∧ List.lookup "search_recency_filter"
      (chatPayload "sonar" [] none (Json.float "0.2") (Json.float "0.9")
        true false false none none 0 false (Json.int 0) (Json.int 1)) = none
    ∧ List.lookup "search_domain_filter"
      (chatPayload "sonar" [] none (Json.float "0.2") (Json.float "0.9")
        true false false (some ["arxiv.org", "nature.com"]) none 0 false
        (Json.int 0) (Json.int 1))
      = some (Json.arr [Json.str "arxiv.org", Json.str "nature.com"]) := by
  refine ⟨?_, ?_, ?_, ?_⟩
  · exact (chatPayload_unset_omitted "sonar" [] none (Json.float "0.2") (Json.float "0.9")
      true false false none none 0 false (Json.int 0) (Json.int 1)).1 rfl
  · exact (chatPayload_unset_omitted "sonar" [] none (Json.float "0.2") (Json.float "0.9")
      true false false none none 0 false (Json.int 0) (Json.int 1)).2.1 rfl
  · exact (chatPayload_unset_omitted "sonar" [] none (Json.float "0.2") (Json.float "0.9")
      true false false none none 0 false (Json.int 0) (Json.int 1)).2.2.1 rfl
  · exact (chatPayload_unset_omitted "sonar" [] none (Json.float "0.2") (Json.float "0.9")
      true false false (some ["arxiv.org", "nature.com"]) none 0 false
      (Json.int 0) (Json.int 1)).2.2.2 ["arxiv.org", "nature.com"] rfl (by simp)

/-- C4: the body `\x7b"choices":[\x7b"message":\x7b"content":"hello"\x7d\x7d],
"citations":["a","b"]\x7d` rendered in text mode with citation display
enabled produces exactly `"hello\n\nCitations:\n1. a\n2. b"`. -/
theorem textMode_renders_citations :
    prepareOutput successBody defaultTestArgs
      = PyRes.ok "hello\n\nCitations:\n1. a\n2. b" := rfl

/-- C1 counterexample: a completed response with the non-2xx status
304 and the parseable body `\x7b\x7d` is not turned into a `Failure`
value — `chat_completion` returns the decoded body, which carries no
`"error"` member, no message, no status code and no body text. -/
theorem nonFailure_on_304 :
    chatResponse (.resp 304 "\x7b\x7d") = Json.obj []
    ∧ pyContains (chatResponse (.resp 304 "\x7b\x7d")) "error" = .ok false := ⟨rfl, rfl⟩

/-- C1 (amended): on a connection error, a timeout, or a response
with status 400-599, `chat_completion` returns (never raises) a
failure dict whose `"error"` member is the human-readable message;
the status code and the raw body text are included exactly when a
response was obtained, and `status_code` is `None` otherwise. -/
theorem chatResponse_failure_shape (o : PostResult) (h : transportFailure o) :
    match o with
    | .resp s t =>
        chatResponse o = Json.obj [("error", Json.str (httpErrorMessage s)),
          ("status_code", Json.int s), ("response_text", Json.str t)]
    | .connError m =>
        chatResponse o = Json.obj [("error", Json.str m), ("status_code", Json.null)]
    | .timeoutError m =>
        chatResponse o = Json.obj [("error", Json.str m), ("status_code", Json.null)] := by
  cases o with
  | resp s t =>
    simp only [transportFailure] at h
    simp [chatResponse, h]
  | connError m => rfl
  | timeoutError m => rfl

/-- Closed instance of `chatResponse_failure_shape` at a 401
response. -/
theorem chatResponse_failure_shape_witness :
    transportFailure (.resp 401 "denied")
    ∧ chatResponse (.resp 401 "denied")
        = Json.obj [("error", Json.str (httpErrorMessage 401)),
            ("status_code", Json.int 401), ("response_text", Json.str "denied")] :=
  ⟨by constructor <;> omega,
   chatResponse_failure_shape (.resp 401 "denied") (by constructor <;> omega)⟩

/-- C5 counterexample: the 2xx response whose decoded body is the
well-formed success payload `ambiguousBody` (it has
`choices[0].message.content`) is consumed as a `Failure`: `main`
prints `Error: boom` to stderr and exits 1 instead of rendering. -/
theorem success_body_with_error_key_misclassified :
    chatResponse (.resp 200 (dumps (some 2) ambiguousBody)) = ambiguousBody
    ∧ extractContent ambiguousBody = .ok (Json.str "hi")
    ∧ mainFrom ambiguousBody defaultTestArgs none
        = .done [Ev.err "Error: boom"] 1 := ⟨rfl, rfl, rfl⟩

/-- C5 (amended): `chat_completion` returns an untagged dict in both
cases; the caller classifies the result as `Failure` exactly when the
dict contains the top-level key `"error"`.  A non-4xx/5xx response
with parseable body is returned verbatim and is consumed as `Success`
precisely when it lacks that key. -/
theorem apiResult_discrimination (status : Nat) (body : String) (j : Json)
    (args : Args) (fs : Option String)
    (hs : ¬(400 ≤ status ∧ status < 600)) (hp : loads body = some j) :
    chatResponse (.resp status body) = j
    ∧ (∀ ms, j = Json.obj ms →
        mainFrom j args fs =
          if keyMem "error" ms then errorBranch j else renderBranch j args fs) := by
  constructor
  · simp [chatResponse, hs, hp]
  · rintro ms rfl
    by_cases hk : keyMem "error" ms
    · simp [mainFrom, pyContains, hk]
    · simp [mainFrom, pyContains, hk]

/-- Closed instance of `apiResult_discrimination` at a 200 response
with body `\x7b"a": 1\x7d`. -/
theorem apiResult_discrimination_witness :
    chatResponse (.resp 200 "\x7b\"a\": 1\x7d") = Json.obj [("a", Json.int 1)]
    ∧ mainFrom (Json.obj [("a", Json.int 1)]) defaultTestArgs none =
        if keyMem "error" [("a", Json.int 1)] then errorBranch (Json.obj [("a", Json.int 1)])
        else renderBranch (Json.obj [("a", Json.int 1)]) defaultTestArgs none := by
  have h := apiResult_discrimination 200 "\x7b\"a\": 1\x7d" (Json.obj [("a", Json.int 1)])
    defaultTestArgs none (by omega) rfl
  exact ⟨h.1, h.2 [("a", Json.int 1)] rfl⟩

/-- C6 counterexample: the decoded body `\x7b"choices": "x"\x7d` makes
text-mode rendering raise a `TypeError` (string indices must be
integers), which the `except (KeyError, IndexError)` clause does not
catch: the fault escapes `main` untranslated. -/
theorem wrongTyped_choices_crash :
    textOutput (Json.obj [("choices", Json.str "x")]) defaultTestArgs
      = .uncaught "string indices must be integers"
    ∧ mainFrom (Json.obj [("choices", Json.str "x")]) defaultTestArgs none
      = .crash := ⟨rfl, rfl⟩

/-- C6 (amended): the rendering path is total only for faults that
surface as `KeyError` or `IndexError` — those are caught and reported
with the raw JSON before a non-zero exit; a `TypeError` raised while
rendering (ill-typed fields) escapes `main` as a raw fault. -/
theorem renderFault_translation (response : Json) (args : Args) (fs : Option String)
    (herr : pyContains response "error" = .ok false) (hjson : args.json = false) :
    (∀ k, textOutput response args = .keyError k →
      mainFrom response args fs
        = .done [Ev.err ("Error parsing response: " ++ pyRepr k),
                 Ev.err (dumps (some 2) response)] 1)
    ∧ (textOutput response args = .indexError →
      mainFrom response args fs
        = .done [Ev.err ("Error parsing response: list index out of range"),
                 Ev.err (dumps (some 2) response)] 1)
    ∧ (∀ m, textOutput response args = .uncaught m →
      mainFrom response args fs = .crash) := by
  refine ⟨?_, ?_, ?_⟩
  · intro k hk
    simp [mainFrom, herr, renderBranch, prepareOutput, hjson, hk]
  · intro hk
    simp [mainFrom, herr, renderBranch, prepareOutput, hjson, hk]
  · intro m hm
    simp [mainFrom, herr, renderBranch, prepareOutput, hjson, hm]

/-- Closed instance of `renderFault_translation`: a body without
`choices` is reported and exits 1. -/
theorem renderFault_translation_witness :
    mainFrom (Json.obj [("id", Json.str "1")]) defaultTestArgs none
      = .done [Ev.err ("Error parsing response: " ++ pyRepr (Json.str "choices")),
               Ev.err (dumps (some 2) (Json.obj [("id", Json.str "1")]))] 1 :=
  (renderFault_translation (Json.obj [("id", Json.str "1")]) defaultTestArgs none
    rfl rfl).1 (Json.str "choices") rfl

/-- C3: a `Success` body that is an object with no `"error"` member
but without `choices`, or with empty `choices`, or without
`message`/`content` below it, makes text-mode rendering fail: `main`
prints a message and the full raw indented JSON to stderr and exits
1, displaying nothing. -/
theorem missing_fields_reported (ms : List (String × Json)) (args : Args)
    (fs : Option String)
    (herr : keyMem "error" ms = false) (hjson : args.json = false)
    (hshape :
      List.lookup "choices" ms = none
      ∨ List.lookup "choices" ms = some (Json.arr [])
      ∨ (∃ c0 rest, List.lookup "choices" ms = some (Json.arr (Json.obj c0 :: rest))
          ∧ List.lookup "message" c0 = none)
      ∨ (∃ c0 rest mm, List.lookup "choices" ms = some (Json.arr (Json.obj c0 :: rest))
          ∧ List.lookup "message" c0 = some (Json.obj mm)
          ∧ List.lookup "content" mm = none)) :
    ∃ msg, mainFrom (Json.obj ms) args fs
      = .done [Ev.err ("Error parsing response: " ++ msg),
               Ev.err (dumps (some 2) (Json.obj ms))] 1 := by
  rcases hshape with h | h | ⟨c0, rest, h, hm⟩ | ⟨c0, rest, mm, h, hm, hc⟩
  · exact ⟨pyRepr (Json.str "choices"), by
      simp [mainFrom, pyContains, herr, renderBranch, prepareOutput, hjson,
        textOutput, extractContent, pyGetItem, h, PyRes.bind]⟩
  · exact ⟨"list index out of range", by
      simp [mainFrom, pyContains, herr, renderBranch, prepareOutput, hjson,
        textOutput, extractContent, pyGetItem, pyIndex0, h, PyRes.bind]⟩
  · exact ⟨pyRepr (Json.str "message"), by
      simp [mainFrom, pyContains, herr, renderBranch, prepareOutput, hjson,
        textOutput, extractContent, pyGetItem, pyIndex0, h, hm, PyRes.bind]⟩
  · exact ⟨pyRepr (Json.str "content"), by
      simp [mainFrom, pyContains, herr, renderBranch, prepareOutput, hjson,
        textOutput, extractContent, pyGetItem, pyIndex0, h, hm, hc, PyRes.bind]⟩

/-- Closed instance of `missing_fields_reported` at a body with empty
`choices`. -/
theorem missing_fields_reported_witness :
    ∃ msg, mainFrom (Json.obj [("choices", Json.arr [])]) defaultTestArgs none
      = .done [Ev.err ("Error parsing response: " ++ msg),
               Ev.err (dumps (some 2) (Json.obj [("choices", Json.arr [])]))] 1 :=
  missing_fields_reported [("choices", Json.arr [])] defaultTestArgs none
    rfl rfl (Or.inr (Or.inl rfl))

/-- C8: when rendering succeeded and `--save` was given, the output
is displayed first; the save step follows, and its failure only adds
a warning line on stderr — the displayed output and the exit status 0
are exactly those of the successful-save run. -/
theorem saveStep_isolated (response : Json) (args : Args) (output fn emsg : String)
    (herr : pyContains response "error" = .ok false)
    (hout : prepareOutput response args = .ok output)
    (hsave : args.save = some fn) :
    mainFrom response args none
      = .done [Ev.out output, Ev.write fn output,
               Ev.err ("\nResponse saved to: " ++ fn)] 0
    ∧ mainFrom response args (some emsg)
      = .done [Ev.out output, Ev.err ("Error saving file: " ++ emsg)] 0 := by
  constructor <;> simp [mainFrom, herr, renderBranch, hout, afterDisplay, hsave]

/-- Closed instance of `saveStep_isolated`: JSON mode with
`--save out.json`, on a failing write. -/
theorem saveStep_isolated_witness :
    mainFrom (Json.obj [("a", Json.int 1)])
      (parsedArgs "q" "sonar" none "0.2" false false false false none none true false
        (some "out.json")) (some "disk full")
      = .done [Ev.out (dumps (some 2) (Json.obj [("a", Json.int 1)])),
               Ev.err ("Error saving file: " ++ "disk full")] 0 :=
  (saveStep_isolated (Json.obj [("a", Json.int 1)])
    (parsedArgs "q" "sonar" none "0.2" false false false false none none true false
      (some "out.json"))
    (dumps (some 2) (Json.obj [("a", Json.int 1)])) "out.json" "disk full"
    rfl rfl rfl).2

/-- C10: `--no-citations` only changes the outgoing payload.  The
parsed `citations` flag is always `True` (its default, which
`store_true` cannot unset), the payload's `return_citations` equals
the negation of `no_citations`, the whole tail of `main` is
unaffected by `no_citations`, and a truthy `citations` member of the
response always yields the Citations block in text mode. -/
theorem noCitations_only_affects_payload
    (question model : String) (mt : Option Int) (temp : String)
    (cg ncg ig rg jg pg : Bool) (df : Option (List String)) (rec save : Option String)
    (response cit : Json) (b : Bool) (r : Json) (fs : Option String) :
    (parsedArgs question model mt temp cg ncg ig rg df rec jg pg save).citations = true
    ∧ List.lookup "return_citations"
        (askPayload (parsedArgs question model mt temp cg ncg ig rg df rec jg pg save))
        = some (Json.bool
            (!(parsedArgs question model mt temp cg ncg ig rg df rec jg pg save).no_citations))
    ∧ mainFrom r
        { parsedArgs question model mt temp cg ncg ig rg df rec jg pg save with
          no_citations := b } fs
        = mainFrom r (parsedArgs question model mt temp cg ncg ig rg df rec jg pg save) fs
    ∧ (pyGet response "citations" = .ok cit → jsonTruthy cit = true →
        ∀ items, pyIter cit = some items →
          citParts response (parsedArgs question model mt temp cg ncg ig rg df rec jg pg save)
            = .ok ("\nCitations:" :: enumLines 1 items)) := by
  refine ⟨by cases cg <;> rfl, ?_, ?_, ?_⟩
  · rcases mt with _ | n
    · cases cg <;> rfl
    · by_cases hn : n = 0 <;>
        simp [askPayload, parsedArgs, storeTrue, optIntTruthy, hn] <;>
        cases cg <;> cases ncg <;> rfl
  · rfl
  · intro hget htru items hiter
    cases cg <;>
      simp [citParts, hget, PyRes.bind, parsedArgs, storeTrue, htru, hiter]

/-- Closed instance of `noCitations_only_affects_payload` with
`--no-citations` given: the payload carries `return_citations: false`
while the Citations block is still rendered. -/
theorem noCitations_only_affects_payload_witness :
    (parsedArgs "q" "sonar" none "0.2" false true false false none none false false none).citations
      = true
    ∧ List.lookup "return_citations"
        (askPayload (parsedArgs "q" "sonar" none "0.2" false true false false none none false false none))
        = some (Json.bool false)
    ∧ mainFrom successBody
        { parsedArgs "q" "sonar" none "0.2" false true false false none none false false none with
          no_citations := false } none
        = mainFrom successBody
            (parsedArgs "q" "sonar" none "0.2" false true false false none none false false none) none
    ∧ citParts successBody
        (parsedArgs "q" "sonar" none "0.2" false true false false none none false false none)
        = .ok ("\nCitations:" :: enumLines 1 [Json.str "a", Json.str "b"]) := by
  have h := noCitations_only_affects_payload "q" "sonar" none "0.2"
    false true false false false false none none none successBody
    (Json.arr [Json.str "a", Json.str "b"]) false successBody none
  exact ⟨h.1, h.2.1, h.2.2.1, h.2.2.2 rfl rfl [Json.str "a", Json.str "b"] rfl⟩

/-- C7: with `--json` and `--pretty` both set, the prepared output is
exactly the decoded response re-serialized by
`json.dumps(response, indent=2)` — this path cannot fail — and
feeding that text back through `json.loads` reproduces the decoded
object verbatim. -/
theorem jsonMode_roundTrip (body : String) (response : Json) (args : Args)
    (hresp : loads body = some response) (hjson : args.json = true)
    (hpretty : args.pretty = true) :
    prepareOutput response args = .ok (dumps (some 2) response)
    ∧ loads (dumps (some 2) response) = some response := by
  refine ⟨by simp [prepareOutput, hjson, hpretty], ?_⟩
  exact loads_dumps response (loads_wf body response hresp)

/-- Closed instance of `jsonMode_roundTrip` on the decoding of
`\x7b"a": [1, 2.5]\x7d`. -/
theorem jsonMode_roundTrip_witness :
    prepareOutput (Json.obj [("a", Json.arr [Json.int 1, Json.float "2.5"])])
        (parsedArgs "q" "sonar" none "0.2" false false false false none none true false none)
      = PyRes.ok (dumps (some 2) (Json.obj [("a", Json.arr [Json.int 1, Json.float "2.5"])]))
    ∧ loads (dumps (some 2) (Json.obj [("a", Json.arr [Json.int 1, Json.float "2.5"])]))
      = some (Json.obj [("a", Json.arr [Json.int 1, Json.float "2.5"])]) :=
  jsonMode_roundTrip "\x7b\"a\": [1, 2.5]\x7d"
    (Json.obj [("a", Json.arr [Json.int 1, Json.float "2.5"])])
    (parsedArgs "q" "sonar" none "0.2" false false false false none none true false none)
    rfl rfl rfl

end Perplexity
